import Mathlib

/-!
Verification development for the `relock` tool (src/relock.js).

The JavaScript source is shallowly embedded below.  Conventions used
throughout:

* JS objects used as string-keyed maps are modelled as association lists
  `List (String × α)` in insertion order; JS property lookup is first-match
  lookup (`getKey`), and JS property assignment replaces in place when the
  key exists and appends otherwise (`setKey`), matching JS enumeration
  order for the non-numeric keys this program uses.
* JS mutable global state (`dependencyTrees`, `versions`, and the
  per-invocation `processed` table of `generateDependencyTree`) is threaded
  explicitly as a `BState` record.
* Unbounded JS loops/recursions are given explicit fuel; a `none` result
  marks fuel exhaustion.  Wherever the JS code terminates, we pick fuel
  that is provably sufficient, so `none` coincides with genuine
  non-termination or a genuine JS crash (a thrown TypeError/SyntaxError);
  each such place is noted at its definition.
* Strings are treated at the level of their character lists.  The JS code
  only compares, splits, joins, hashes, and concatenates strings, and the
  inputs are JSON documents, so Unicode scalar values model JS strings
  exactly for every input without surrogate pairs.
-/

set_option maxRecDepth 100000
set_option maxHeartbeats 2000000

namespace Relock

/-! ### Association-list primitives modelling JS objects -/

/-- JS property read `obj[k]`: first binding of `k`. -/
def getKey {α : Type} : List (String × α) → String → Option α
  | [], _ => none
  | (k, v) :: rest, key => if k = key then some v else getKey rest key

/-- JS property write `obj[k] = v`: replace in place if present, else append
(JS preserves the original insertion position of an updated key). -/
def setKey {α : Type} : List (String × α) → String → α → List (String × α)
  | [], key, v => [(key, v)]
  | (k, w) :: rest, key, v =>
    if k = key then (k, v) :: rest else (k, w) :: setKey rest key v

def containsKey {α : Type} (m : List (String × α)) (k : String) : Bool :=
  (getKey m k).isSome

/-! ### Character-level split / join (JS `split('|')`, `join('|')`) -/

/-- `split` of a character list at a single delimiter character, with JS
semantics: `""` splits to `[""]`, delimiters at the ends produce empty
fields. -/
def splitCharL (delim : Char) : List Char → List (List Char)
  | [] => [[]]
  | c :: rest =>
    if c = delim then [] :: splitCharL delim rest
    else match splitCharL delim rest with
      | [] => [[c]]
      | f :: fs => (c :: f) :: fs

/-- JS `s.split('|')`. -/
def splitBar (s : String) : List String :=
  (splitCharL '|' s.data).map String.mk

/-- JS `s.split('.')`. -/
def splitDot (s : String) : List String :=
  (splitCharL '.' s.data).map String.mk

/-- JS `parts.join('|')`. -/
def joinBar : List String → String
  | [] => ""
  | [p] => p
  | p :: rest => p ++ "|" ++ joinBar rest

/-! ### String comparison (JS `<`, `>` and default `Array.sort`)

JS compares strings by UTF-16 code units; for the code-point range this
program manipulates (JSON keys and version strings) that is exactly
code-point order on the character lists. -/

def charListLt : List Char → List Char → Bool
  | [], [] => false
  | [], _ :: _ => true
  | _ :: _, [] => false
  | a :: as, b :: bs =>
    if a.toNat < b.toNat then true
    else if b.toNat < a.toNat then false
    else charListLt as bs

def strLtB (a b : String) : Bool := charListLt a.data b.data

/-- Three-way comparison used to model a JS sort comparator result. -/
def strCmp (a b : String) : Ordering :=
  if strLtB a b then .lt else if strLtB b a then .gt else .eq

/-- Stable insertion of `x` after every already-placed element not strictly
greater than it; `foldl` of this is a stable sort, and any stable sort
agrees with JS `Array.prototype.sort` (stable per the ES spec) whenever the
comparator is a total preorder, which holds for every comparator below. -/
def insertCmp {α : Type} (cmp : α → α → Ordering) (x : α) : List α → List α
  | [] => [x]
  | y :: ys => if cmp y x = .gt then x :: y :: ys else y :: insertCmp cmp x ys

def sortByCmp {α : Type} (cmp : α → α → Ordering) (l : List α) : List α :=
  l.foldl (fun acc x => insertCmp cmp x acc) []

/-! ### MD5 (crypto.createHash('md5') … digest('hex'))

A direct implementation of RFC 1321 over `Nat` machine words reduced
mod `2^32`. -/

def m32 : Nat := 4294967296

def rotl32 (x s : Nat) : Nat :=
  ((x <<< s) % m32) ||| (x >>> (32 - s))

/-- Bitwise NOT on a 32-bit word. -/
def not32 (x : Nat) : Nat := 4294967295 - x

def md5K : List Nat :=
  [0xd76aa478, 0xe8c7b756, 0x242070db, 0xc1bdceee, 0xf57c0faf, 0x4787c62a, 0xa8304613, 0xfd469501,
   0x698098d8, 0x8b44f7af, 0xffff5bb1, 0x895cd7be, 0x6b901122, 0xfd987193, 0xa679438e, 0x49b40821,
   0xf61e2562, 0xc040b340, 0x265e5a51, 0xe9b6c7aa, 0xd62f105d, 0x02441453, 0xd8a1e681, 0xe7d3fbc8,
   0x21e1cde6, 0xc33707d6, 0xf4d50d87, 0x455a14ed, 0xa9e3e905, 0xfcefa3f8, 0x676f02d9, 0x8d2a4c8a,
   0xfffa3942, 0x8771f681, 0x6d9d6122, 0xfde5380c, 0xa4beea44, 0x4bdecfa9, 0xf6bb4b60, 0xbebfbc70,
   0x289b7ec6, 0xeaa127fa, 0xd4ef3085, 0x04881d05, 0xd9d4d039, 0xe6db99e5, 0x1fa27cf8, 0xc4ac5665,
   0xf4292244, 0x432aff97, 0xab9423a7, 0xfc93a039, 0x655b59c3, 0x8f0ccc92, 0xffeff47d, 0x85845dd1,
   0x6fa87e4f, 0xfe2ce6e0, 0xa3014314, 0x4e0811a1, 0xf7537e82, 0xbd3af235, 0x2ad7d2bb, 0xeb86d391]

def md5S : List Nat :=
  [7, 12, 17, 22, 7, 12, 17, 22, 7, 12, 17, 22, 7, 12, 17, 22,
   5,  9, 14, 20, 5,  9, 14, 20, 5,  9, 14, 20, 5,  9, 14, 20,
   4, 11, 16, 23, 4, 11, 16, 23, 4, 11, 16, 23, 4, 11, 16, 23,
   6, 10, 15, 21, 6, 10, 15, 21, 6, 10, 15, 21, 6, 10, 15, 21]

/-- One MD5 round step; `i` counts down from 64 to 1, the current step index
is `64 - i`. -/
def md5Steps (block : List Nat) : Nat → Nat × Nat × Nat × Nat → Nat × Nat × Nat × Nat
  | 0, st => st
  | i + 1, (a, b, c, d) =>
    let idx := 63 - i
    let f :=
      if idx < 16 then (b &&& c) ||| (not32 b &&& d)
      else if idx < 32 then (d &&& b) ||| (not32 d &&& c)
      else if idx < 48 then b ^^^ c ^^^ d
      else c ^^^ (b ||| not32 d)
    let g :=
      if idx < 16 then idx
      else if idx < 32 then (5 * idx + 1) % 16
      else if idx < 48 then (3 * idx + 5) % 16
      else (7 * idx) % 16
    let tmp := (a + f + md5K.getD idx 0 + block.getD g 0) % m32
    let b2 := (b + rotl32 tmp (md5S.getD idx 0)) % m32
    md5Steps block i (d, b2, b, c)

/-- Split the first 64 padded bytes into 16 little-endian 32-bit words. -/
def md5Words (bytes : List Nat) : List Nat :=
  (List.range 16).map fun j =>
    bytes.getD (4 * j) 0 + 256 * bytes.getD (4 * j + 1) 0 +
      65536 * bytes.getD (4 * j + 2) 0 + 16777216 * bytes.getD (4 * j + 3) 0

def md5Blocks : Nat → List Nat → Nat × Nat × Nat × Nat → Nat × Nat × Nat × Nat
  | 0, _, st => st
  | fuel + 1, bytes, (a, b, c, d) =>
    match bytes with
    | [] => (a, b, c, d)
    | _ =>
      let (a2, b2, c2, d2) := md5Steps (md5Words (bytes.take 64)) 64 (a, b, c, d)
      md5Blocks fuel (bytes.drop 64) ((a + a2) % m32, (b + b2) % m32, (c + c2) % m32, (d + d2) % m32)

def md5Pad (msg : List Nat) : List Nat :=
  let len := msg.length
  let zeroes := (120 - (len + 1) % 64) % 64
  let bits := len * 8
  msg ++ 0x80 :: List.replicate zeroes 0 ++ (List.range 8).map fun i => (bits >>> (8 * i)) % 256

/-- Little-endian hex rendering of one 32-bit word (4 bytes, 2 digits each). -/
def word2hex (w : Nat) : List Char :=
  ((List.range 4).map fun i => (w >>> (8 * i)) % 256).flatMap fun byte =>
    [Nat.digitChar (byte / 16), Nat.digitChar (byte % 16)]

/-- UTF-8 encoding of one character (Node `hash.update(string)` defaults to
utf8). -/
def utf8Char (c : Char) : List Nat :=
  let n := c.toNat
  if n < 128 then [n]
  else if n < 2048 then [192 + n / 64, 128 + n % 64]
  else if n < 65536 then [224 + n / 4096, 128 + (n / 64) % 64, 128 + n % 64]
  else [240 + n / 262144, 128 + (n / 4096) % 64, 128 + (n / 64) % 64, 128 + n % 64]

def utf8Bytes (s : String) : List Nat := s.data.flatMap utf8Char

/-- `crypto.createHash('md5').update(s).digest('hex')`. -/
def md5Hex (s : String) : String :=
  let padded := md5Pad (utf8Bytes s)
  let (a, b, c, d) :=
    md5Blocks (padded.length / 64 + 1) padded (0x67452301, 0xefcdab89, 0x98badcfe, 0x10325476)
  String.mk (word2hex a ++ word2hex b ++ word2hex c ++ word2hex d)

end Relock


namespace Relock

/-! ### Data model

`LockNode` models one entry of a package-lock JSON document.  Real lock
entries may omit `requires`/`dependencies` and may carry extra metadata
fields; the embedding models them as always-present maps (the JS code
normalises a missing `requires` to `{}` before every read) and keeps only
the fields the algorithms read. -/

inductive LockNode where
  | mk (version : String) (requires : List (String × String))
       (dependencies : List (String × LockNode))

def LockNode.version : LockNode → String
  | .mk v _ _ => v

def LockNode.requires : LockNode → List (String × String)
  | .mk _ r _ => r

def LockNode.dependencies : LockNode → List (String × LockNode)
  | .mk _ _ d => d

/-- A node of the canonical dependency tree built by
`generateDependencyTree`: fields in JS property-creation order
(`name`, `version`, `semVer`, `tag`, `requires`, `signature`,
`dependencies`).  The synthetic root produced by `generateDependencyTree`
has no `semVer`/`tag` properties in JS; it is modelled with `""` in those
fields, which no code path ever reads or serializes. -/
inductive DepNode where
  | mk (name version semVer tag : String) (requires : List (String × String))
       (signature : String) (dependencies : List DepNode)

def DepNode.name : DepNode → String
  | .mk n _ _ _ _ _ _ => n

def DepNode.version : DepNode → String
  | .mk _ v _ _ _ _ _ => v

def DepNode.semVer : DepNode → String
  | .mk _ _ s _ _ _ _ => s

def DepNode.tag : DepNode → String
  | .mk _ _ _ t _ _ _ => t

def DepNode.requires : DepNode → List (String × String)
  | .mk _ _ _ _ r _ _ => r

def DepNode.signature : DepNode → String
  | .mk _ _ _ _ _ s _ => s

def DepNode.dependencies : DepNode → List DepNode
  | .mk _ _ _ _ _ _ d => d

/-- `versions[name@version]`: the lock entry minus its `dependencies`
(deep-copied in JS; pure values here). -/
structure VRec where
  version : String
  requires : List (String × String)
deriving DecidableEq

/-- The module-level mutable state of relock.js: the global
`dependencyTrees` and `versions` indices (file scope, never cleared) and
the `processed` table, which is a fresh local of each
`generateDependencyTree` invocation. -/
structure BState where
  dependencyTrees : List (String × List DepNode)
  versions : List (String × VRec)
  processed : List (String × List DepNode)

def initState : BState := ⟨[], [], []⟩

/-- Configuration: `projectFiles` patterns; the regex engine
(`new RegExp(pat)` + `String.prototype.search`) is abstracted as the
boolean matcher `reTest pat s`.  For literal metacharacter-free patterns
JS regex search is substring search. -/
structure Config where
  projectFiles : List String
  reTest : String → String → Bool

/-- JS regex search for a literal, metacharacter-free pattern:
substring containment. -/
def isPrefixAt : List Char → List Char → Bool
  | [], _ => true
  | _ :: _, [] => false
  | p :: ps, c :: cs => p == c && isPrefixAt ps cs

def infixAt (pat : List Char) : List Char → Bool
  | [] => isPrefixAt pat []
  | c :: rest => isPrefixAt pat (c :: rest) || infixAt pat rest

def litSearch (pat s : String) : Bool := infixAt pat.data s.data

def isProjectModule (cfg : Config) (moduleName : String) : Bool :=
  if moduleName = "" then true
  else cfg.projectFiles.any fun pat => cfg.reTest pat moduleName

/-! ### Signature engine

`getTreeSignature(tree) = md5(JSON.stringify(tree))`, always applied to
*arrays* of dependency nodes.  `JSON.stringify` emits object keys in
property-creation order, so the serialization below lists the `DepNode`
fields in the order the JS code creates them. -/

def jsonEscChar (c : Char) : List Char :=
  if c = '"' then ['\\', '"']
  else if c = '\\' then ['\\', '\\']
  else if c = '\x08' then ['\\', 'b']
  else if c = '\x09' then ['\\', 't']
  else if c = '\x0a' then ['\\', 'n']
  else if c = '\x0c' then ['\\', 'f']
  else if c = '\x0d' then ['\\', 'r']
  else if c.toNat < 32 then
    ['\\', 'u', '0', '0', Nat.digitChar (c.toNat / 16), Nat.digitChar (c.toNat % 16)]
  else [c]

def jsonQuote (s : String) : String :=
  "\"" ++ String.mk (s.data.flatMap jsonEscChar) ++ "\""

def lbrace : String := "\x7b"

def rbrace : String := "\x7d"

def joinComma : List String → String
  | [] => ""
  | [p] => p
  | p :: rest => p ++ "," ++ joinComma rest

/-- `JSON.stringify` of a string-to-string map object. -/
def stringifyStrMap (m : List (String × String)) : String :=
  lbrace ++ joinComma (m.map fun kv => jsonQuote kv.1 ++ ":" ++ jsonQuote kv.2) ++ rbrace

mutual

/-- `JSON.stringify` of one dependency node object. -/
def stringifyNode : DepNode → String
  | .mk n v sv t r sg deps =>
    lbrace ++ "\"name\":" ++ jsonQuote n ++ ",\"version\":" ++ jsonQuote v ++
      ",\"semVer\":" ++ jsonQuote sv ++ ",\"tag\":" ++ jsonQuote t ++
      ",\"requires\":" ++ stringifyStrMap r ++ ",\"signature\":" ++ jsonQuote sg ++
      ",\"dependencies\":[" ++ stringifyItems deps ++ "]" ++ rbrace

/-- Comma-joined `JSON.stringify` of the items of a dependency array. -/
def stringifyItems : List DepNode → String
  | [] => ""
  | [d] => stringifyNode d
  | d :: rest => stringifyNode d ++ "," ++ stringifyItems rest

end

/-- `JSON.stringify` of an array of dependency nodes. -/
def stringifyArr (deps : List DepNode) : String :=
  "[" ++ stringifyItems deps ++ "]"

/-- relock.js `getTreeSignature` (always called on dependency arrays). -/
def getTreeSignature (deps : List DepNode) : String :=
  md5Hex (stringifyArr deps)

end Relock

namespace Relock

/-! ### Tree builder: `generateDependencyTree` -/

mutual

/-- relock.js `buildPaths.one`: preorder enumeration of every lock-path
(`|`-joined name sequence) of the nested `dependencies` layout. -/
def bpNode (node : LockNode) (path : List String) : List String :=
  match node with
  | .mk _ _ deps => bpList deps path

def bpList (entries : List (String × LockNode)) (path : List String) : List String :=
  match entries with
  | [] => []
  | (key, child) :: rest =>
    joinBar (path ++ [key]) :: (bpNode child (path ++ [key]) ++ bpList rest path)

end

/-- relock.js `buildPaths`: the root contributes `''`. -/
def buildPaths (root : LockNode) : List String :=
  "" :: bpNode root []

/-- The do/while search loop of `getLockPath`, one fuel unit per iteration.
Mirrors the JS control flow exactly: a match sets `found = check`; the loop
exits only when `found` is truthy (a non-empty string) or `done` is set.
When `check` is the empty string and is found (always, since `''` is a
lock-path), `found = ''` stays falsy and the loop repeats *with unchanged
state*: the JS loop diverges there, and every fuel value yields `none`. -/
def glpLoop (lockPaths : List String) (name : String) : Nat → List String → Option String
  | 0, _ => none
  | fuel + 1, searchPath =>
    let check := joinBar (searchPath ++ [name])
    if lockPaths.contains check then
      if check = "" then glpLoop lockPaths name fuel searchPath
      else some check
    else if searchPath = [] then some ""
    else glpLoop lockPaths name fuel searchPath.dropLast

/-- relock.js `generateDependencyTree.getLockPath`.  A terminating JS run
pops `searchPath` at most `path.length` times and then exits, so
`path.length + 1` iterations are exactly enough: `some` results coincide
with JS return values and `none` with JS divergence. -/
def getLockPath (lockPaths : List String) (path : List String) (name : String) : Option String :=
  if path = [] ∧ name = "" then some ""
  else glpLoop lockPaths name (path.length + 1) path

/-- relock.js `generateDependencyTree.getNode`: walks `root` by name,
*keeping the current node* when a path part is missing (it only logs
`cannot find`).  In particular it is total and never yields `undefined`. -/
def getNode (root : LockNode) (path : List String) : LockNode :=
  path.foldl
    (fun node part =>
      match getKey node.dependencies part with
      | some child => child
      | none => node)
    root

/-- relock.js `generateDependencyTree.find`: the root shortcut, else
`getNode(getLockPath(path, name).split('|'))`.  `none` only propagates
`getLockPath` divergence; a failed lookup silently resolves to an ancestor
(ultimately the root) via `getNode`'s fallback, which is why the
`if (!match) throw` guard in the caller is unreachable. -/
def findLock (root : LockNode) (lockPaths : List String) (name : String)
    (path : List String) : Option LockNode :=
  if name = "" ∧ path = [] then some root
  else (getLockPath lockPaths path name).map fun lp => getNode root (splitBar lp)

/-- relock.js `sort` (an intentional no-op in the source). -/
def sortId (list : List DepNode) : List DepNode := list

/-- The `lockNode.requires` forEach body of `generateDependencyTree.one`,
with the recursive call abstracted as `go`.  Per entry: resolve the
required node, record it (minus `dependencies`) in `versions` keyed
`name@version` *before* recursing, recurse on `realPath.split('|')`,
assemble the dependency node (property order as created in JS), and
register its signature in the global `dependencyTrees`. -/
def oneKids (go : List String → BState → Option (List DepNode × BState))
    (root : LockNode) (lockPaths : List String) (path : List String) :
    List (String × String) → BState → Option (List DepNode × BState)
  | [], st => some ([], st)
  | (nm, semVer) :: rest, st =>
    match getLockPath lockPaths path nm with
    | none => none
    | some realPath =>
      match findLock root lockPaths nm path with
      | none => none
      | some mtch =>
        let st1 := { st with
          versions := setKey st.versions (nm ++ "@" ++ mtch.version) ⟨mtch.version, mtch.requires⟩ }
        match go (splitBar realPath) st1 with
        | none => none
        | some r2 =>
          let kidDeps := sortId r2.1
          let sg := getTreeSignature kidDeps
          let node : DepNode :=
            .mk nm mtch.version semVer (nm ++ "@" ++ mtch.version) mtch.requires sg kidDeps
          let st3 := { r2.2 with dependencyTrees := setKey r2.2.dependencyTrees sg kidDeps }
          match oneKids go root lockPaths path rest st3 with
          | none => none
          | some r4 => some (node :: r4.1, r4.2)

/-- relock.js `generateDependencyTree.one`.  The mutable `stack` is pushed
on entry and popped on every exit, so it is passed as a per-call value; a
lock-path already on the stack returns `[]` (the circular-reference edge).
One fuel unit per nesting level of the recursion; sibling iterations share
the level's fuel. -/
def one (root : LockNode) (lockPaths : List String) :
    Nat → List String → List String → BState → Option (List DepNode × BState)
  | 0, _, _, _ => none
  | fuel + 1, stack, path, st =>
    let onePath := path.dropLast
    let name := path.getLast?.getD ""
    match getLockPath lockPaths onePath name with
    | none => none
    | some lockOnePath =>
      if stack.contains lockOnePath then some ([], st)
      else
        match findLock root lockPaths name onePath with
        | none => none
        | some lockNode =>
          match getKey st.processed lockOnePath with
          | some deps => some (deps, st)
          | none =>
            match oneKids (one root lockPaths fuel (stack ++ [lockOnePath]))
                root lockPaths path lockNode.requires st with
            | none => none
            | some r2 =>
              some (r2.1, { r2.2 with processed := setKey r2.2.processed lockOnePath r2.1 })

/-- relock.js `generateDependencyTree`.  `processed` is a fresh local of
each invocation; `dependencyTrees`/`versions` persist in the threaded
state.  Recursion depth is bounded by the number of distinct lock-paths
(the stack grows by one new lock-path per level), so `lockPaths.length + 1`
fuel is sufficient wherever the JS recursion terminates. -/
def generateDependencyTree (root : LockNode) (st : BState) : Option (DepNode × BState) :=
  let lockPaths := buildPaths root
  match one root lockPaths (lockPaths.length + 1) [] [] { st with processed := [] } with
  | none => none
  | some r =>
    let sg := getTreeSignature r.1
    let st2 := { r.2 with dependencyTrees := setKey r.2.dependencyTrees sg r.1 }
    some (.mk "" root.version "" "" root.requires sg r.1, st2)

end Relock

namespace Relock

/-! ### Relock differ: `relockTree` -/

/-- JS `String.prototype.replace` with a one-character string pattern:
removes the *first* occurrence only. -/
def removeFirst (c : Char) : List Char → List Char
  | [] => []
  | x :: xs => if x = c then xs else x :: removeFirst c xs

/-- relock.js `cleanSemVer`: `replace('~','')` then `replace('^','')`. -/
def cleanSemVer (semVer : String) : String :=
  String.mk (removeFirst '^' (removeFirst '~' semVer.data))

/-- relock.js `notPatch`: true when the major or minor component differs.
JS `curVer[i] != prevVer[i]` on possibly-missing array elements is modelled
by `Option String` inequality (`undefined != undefined` is false in JS). -/
def notPatch (curSemVer prevSemVer : String) : Bool :=
  let curVer := splitDot (cleanSemVer curSemVer)
  let prevVer := splitDot (cleanSemVer prevSemVer)
  curVer.get? 0 != prevVer.get? 0 || curVer.get? 1 != prevVer.get? 1

/-- relock.js `relockTree.find`: first dependency with the given name. -/
def findDep (dependencies : List DepNode) (name : String) : Option DepNode :=
  dependencies.find? fun dependency => dependency.name == name

/-- The per-requires-key decision of `relockTree.one`, with the recursive
"re-examine this child" case abstracted as `go`.

relock.js walks both trees by path from their roots at every recursion
(`getNode(curTree, path)` / `getNode(prevTree, path)`), and
`getNode t (path ++ [key]) = find (getNode t path).dependencies key`
definitionally, so passing the two located children down is the same
recursion.  The mutable construction (`addNode` appending into the
partially built output tree) pushes exactly one node per `requires` key in
key order, which is the list built here.  The JSON round-trip copy of
`curNode` is the identity on these pure values.

`none` marks the JS runs that crash: in the recursive branch a child
missing from either tree makes the JS `one` dereference `undefined`
(TypeError); in the three take-a-subtree-verbatim branches a missing child
makes JS push `undefined`, which unconditionally crashes the subsequent
`flattenTree` stage (`dependency.name` of `undefined`), so the failure is
surfaced here. -/
def mixChild (go : DepNode → DepNode → Option DepNode) (cfg : Config)
    (cur prev : DepNode) (key curVer : String) : Option DepNode :=
  match getKey prev.requires key with
  | none => findDep cur.dependencies key
  | some prevVer =>
    if prevVer = "" then findDep cur.dependencies key
    else if notPatch curVer prevVer then findDep cur.dependencies key
    else if prevVer != curVer || isProjectModule cfg key then
      match findDep cur.dependencies key, findDep prev.dependencies key with
      | some curChild, some prevChild => go curChild prevChild
      | _, _ => none
    else findDep prev.dependencies key

def mixDeps (go : DepNode → DepNode → Option DepNode) (cfg : Config)
    (cur prev : DepNode) : List (String × String) → Option (List DepNode)
  | [] => some []
  | (key, curVer) :: rest =>
    match mixChild go cfg cur prev key curVer with
    | none => none
    | some d => (mixDeps go cfg cur prev rest).map fun ds => d :: ds

/-- relock.js `relockTree.one` at one node: copy the current node, rebuild
its dependency list from the per-key decisions.  One fuel unit per
recursion level. -/
def mixOne (cfg : Config) : Nat → DepNode → DepNode → Option DepNode
  | 0, _, _ => none
  | fuel + 1, cur, prev =>
    (mixDeps (mixOne cfg fuel) cfg cur prev cur.requires).map fun ds =>
      .mk cur.name cur.version cur.semVer cur.tag cur.requires cur.signature ds

mutual

/-- Height of a dependency tree (a node with no children has height 1). -/
def depHeight : DepNode → Nat
  | .mk _ _ _ _ _ _ deps => depHeightL deps + 1

def depHeightL : List DepNode → Nat
  | [] => 0
  | d :: rest => max (depHeight d) (depHeightL rest)

end

/-- relock.js `relockTree`.  The JS recursion descends one level of
`curTree` per call, so fuel equal to the height of `curTree` is exact. -/
def relockTree (cfg : Config) (prevTree curTree : DepNode) : Option DepNode :=
  mixOne cfg (depHeight curTree) curTree prevTree

/-! ### Hoister: `flattenTree` -/

structure Module where
  name : String
  version : String
  signature : String
  variant : String
  depth : Nat
  paths : List String

def findVariant (modules : List Module) (variant : String) : Option Module :=
  modules.find? fun m => m.variant == variant

/-- `module.depth = Math.min(module.depth, path.length); module.paths.push(…)`
applied to the module with the given variant key, in place. -/
def bumpVariant (modules : List Module) (variant : String) (depth : Nat)
    (newPath : String) : List Module :=
  modules.map fun m =>
    if m.variant == variant then
      { m with depth := min m.depth depth, paths := m.paths ++ [newPath] }
    else m

mutual

/-- relock.js `flattenTree.buildIndexes`: preorder walk collecting one
`Module` per distinct `name|version|signature` variant, in first-encounter
order, tracking minimum depth and every occurrence path (paths include the
module's own name as last component). -/
def biNode (node : DepNode) (path : List String) (modules : List Module) : List Module :=
  match node with
  | .mk _ _ _ _ _ _ deps => biList deps path modules

def biList (deps : List DepNode) (path : List String) (modules : List Module) : List Module :=
  match deps with
  | [] => modules
  | dep :: rest =>
    let vname := dep.name ++ "|" ++ dep.version ++ "|" ++ dep.signature
    let newPath := path ++ [dep.name]
    let ms1 :=
      if (findVariant modules vname).isSome then modules
      else modules ++ [⟨dep.name, dep.version, dep.signature, vname, path.length, []⟩]
    let ms2 := bumpVariant ms1 vname path.length (joinBar newPath)
    biList rest path (biNode dep newPath ms2)

end

/-- relock.js `flattenTree.sortModules.compare`: ascending depth, then
descending occurrence count, then the `paths[0] + name` strings
lexicographically. -/
def cmpModule (a b : Module) : Ordering :=
  if a.depth < b.depth then .lt
  else if b.depth < a.depth then .gt
  else if b.paths.length < a.paths.length then .lt
  else if a.paths.length < b.paths.length then .gt
  else
    let aPath := joinBar (splitBar (a.paths.headD "") ++ [a.name])
    let bPath := joinBar (splitBar (b.paths.headD "") ++ [b.name])
    strCmp aPath bPath

/-- A node of the placement tree: children keyed by name.  The root
produced by `flattenTree` carries the mixed root's metadata (`Object.assign`)
and has no `variant` property, modelled as `""`; nothing reads it. -/
inductive PNode where
  | mk (name version variant : String) (dependencies : List (String × PNode))

def PNode.name : PNode → String
  | .mk n _ _ _ => n

def PNode.version : PNode → String
  | .mk _ v _ _ => v

def PNode.variant : PNode → String
  | .mk _ _ va _ => va

def PNode.dependencies : PNode → List (String × PNode)
  | .mk _ _ _ d => d

/-- relock.js `flattenTree.add.insert`: `node.dependencies[name] = {…}` —
a plain JS property assignment, which *overwrites* any existing entry for
`name`. -/
def insertDep (node : PNode) (name version variant : String) : PNode :=
  .mk node.name node.version node.variant
    (setKey node.dependencies name (.mk name version variant []))

def setChild (node : PNode) (key : String) (child : PNode) : PNode :=
  .mk node.name node.version node.variant (setKey node.dependencies key child)

/-- The do/while placement loop of relock.js `flattenTree.add`, one
searchPath element consumed per conflict-descend iteration.  With the slot
for `name` occupied by a different variant: `part = searchPath.shift()`;
if `node.dependencies[part]` is missing (including `part = undefined` when
the path is exhausted), the code *inserts over the occupied slot*;
otherwise it descends into that child and retries. -/
def addGo (name version variant : String) : List String → PNode → PNode
  | [], node =>
    (match getKey node.dependencies name with
     | some found =>
       if found.variant = variant then node
       else insertDep node name version variant
     | none => insertDep node name version variant)
  | part :: rest, node =>
    (match getKey node.dependencies name with
     | some found =>
       if found.variant = variant then node
       else
         match getKey node.dependencies part with
         | none => insertDep node name version variant
         | some child => setChild node part (addGo name version variant rest child)
     | none => insertDep node name version variant)

/-- relock.js `flattenTree.add`. -/
def add (tree : PNode) (path variant : String) : PNode :=
  let spec := splitBar variant
  addGo (spec.headD "") ((spec.get? 1).getD "") variant (splitBar path) tree

/-- relock.js `flattenTree.hoistOne`: place the module at each of its
occurrence paths. -/
def hoistOne (tree : PNode) (m : Module) : PNode :=
  m.paths.foldl (fun t p => add t p m.variant) tree

/-- relock.js `flattenTree`: index variants, sort, then place each module
at each of its paths starting from a root copying the mixed root's
metadata with an empty dependency map. -/
def flattenTree (tree : DepNode) : PNode :=
  let modules := sortByCmp cmpModule (biNode tree [] [])
  modules.foldl hoistOne (.mk tree.name tree.version "" [])

/-! ### Lock assembler: `buildLockFile` -/

inductive OutNode where
  | mk (version : String) (requires : List (String × String))
       (dependencies : List (String × OutNode))

def OutNode.version : OutNode → String
  | .mk v _ _ => v

def OutNode.requires : OutNode → List (String × String)
  | .mk _ r _ => r

def OutNode.dependencies : OutNode → List (String × OutNode)
  | .mk _ _ d => d

/-- The sorted-keys forEach of relock.js `buildLockFile.one`, recursion
abstracted as `go`.  `none` models the JS crash when
`versions[name + '@' + version]` is `undefined` (the `JSON.parse` of
`JSON.stringify(undefined)` throws a SyntaxError). -/
def blfKids (go : PNode → Option (List (String × OutNode)))
    (vs : List (String × VRec)) (deps : List (String × PNode)) :
    List String → Option (List (String × OutNode))
  | [] => some []
  | key :: rest =>
    match getKey deps key with
    | none => none
    | some dep =>
      match getKey vs (dep.name ++ "@" ++ dep.version) with
      | none => none
      | some content =>
        match go dep with
        | none => none
        | some kids =>
          match blfKids go vs deps rest with
          | none => none
          | some others => some ((dep.name, .mk content.version content.requires kids) :: others)

/-- relock.js `buildLockFile.one`: children in name-sorted order, each
entry the stored `VRec` content plus recursively assembled dependencies. -/
def blfOne (vs : List (String × VRec)) : Nat → PNode → Option (List (String × OutNode))
  | 0, _ => none
  | fuel + 1, node =>
    blfKids (blfOne vs fuel) vs node.dependencies
      (sortByCmp strCmp (node.dependencies.map Prod.fst))

/-- The assembled lock-file document. -/
structure LockFileDoc where
  name : String
  version : String
  lockfileVersion : Nat
  requires : Bool
  dependencies : List (String × OutNode)

mutual

/-- Height of a placement tree (a node with no children has height 1). -/
def pHeight : PNode → Nat
  | .mk _ _ _ deps => pHeightL deps + 1

def pHeightL : List (String × PNode) → Nat
  | [] => 0
  | (_, c) :: rest => max (pHeight c) (pHeightL rest)

end

/-- relock.js `buildLockFile`: fixed header plus the recursive assembly.
The JS recursion descends one placement level per call, so fuel equal to
the height of the placement tree is exact. -/
def buildLockFile (vs : List (String × VRec)) (tree : PNode)
    (curName curVersion : String) : Option LockFileDoc :=
  (blfOne vs (pHeight tree) tree).map fun deps =>
    ⟨curName, curVersion, 1, true, deps⟩

/-- relock.js `relock`: the full pipeline, threading the module-global
state through both tree builds (the JS globals are file-scoped and never
cleared between the two `generateDependencyTree` calls).  `curName` models
`current.name`, which the JS copies onto the current tree root before
assembly. -/
def relock (cfg : Config) (previous current : LockNode) (curName : String)
    (st : BState) : Option LockFileDoc :=
  match generateDependencyTree previous st with
  | none => none
  | some (prevTree, st1) =>
    match generateDependencyTree current st1 with
    | none => none
    | some (curTree, st2) =>
      match relockTree cfg prevTree curTree with
      | none => none
      | some mixed =>
        buildLockFile st2.versions (flattenTree mixed) curName current.version

end Relock

namespace Relock

/-! ## Lemmas about the differ -/

theorem depHeight_pos (d : DepNode) : 0 < depHeight d := by
  cases d with
  | mk n v sv t r sg deps => simp [depHeight]

theorem notPatch_self (v : String) : notPatch v v = false := by
  simp [notPatch]

theorem mixOne_succ (cfg : Config) (fuel : Nat) (cur prev : DepNode) :
    mixOne cfg (fuel + 1) cur prev =
      (mixDeps (mixOne cfg fuel) cfg cur prev cur.requires).map fun ds =>
        .mk cur.name cur.version cur.semVer cur.tag cur.requires cur.signature ds := rfl

theorem mixDeps_get? {go : DepNode → DepNode → Option DepNode} {cfg : Config}
    {cur prev : DepNode} {reqs : List (String × String)} {ds : List DepNode}
    (h : mixDeps go cfg cur prev reqs = some ds)
    {i : Nat} {key curVer : String} (hi : reqs.get? i = some (key, curVer)) :
    ds.get? i = mixChild go cfg cur prev key curVer := by
  induction reqs generalizing ds i with
  | nil => simp at hi
  | cons kv rest ih =>
    obtain ⟨k0, cv0⟩ := kv
    rw [mixDeps] at h
    cases hmc : mixChild go cfg cur prev k0 cv0 with
    | none => rw [hmc] at h; exact absurd h (by simp)
    | some d =>
      rw [hmc] at h
      cases hrest : mixDeps go cfg cur prev rest with
      | none => rw [hrest] at h; exact absurd h (by simp)
      | some ds' =>
        rw [hrest] at h
        simp only [Option.map_some', Option.some.injEq] at h
        subst h
        cases i with
        | zero =>
          simp only [List.get?] at hi
          cases hi
          simpa using hmc.symm
        | succ j =>
          simp only [List.get?] at hi ⊢
          exact ih hrest hi

theorem mixOne_child {cfg : Config} {fuel : Nat} {cur prev m : DepNode}
    {i : Nat} {key curVer : String}
    (h : mixOne cfg fuel cur prev = some m)
    (hi : cur.requires.get? i = some (key, curVer)) :
    ∃ k, fuel = k + 1 ∧
      m.dependencies.get? i = mixChild (mixOne cfg k) cfg cur prev key curVer := by
  cases fuel with
  | zero =>
    rw [show mixOne cfg 0 cur prev = none from rfl] at h
    cases h
  | succ k =>
    refine ⟨k, rfl, ?_⟩
    rw [mixOne_succ] at h
    cases hds : mixDeps (mixOne cfg k) cfg cur prev cur.requires with
    | none => rw [hds] at h; exact absurd h (by simp)
    | some ds =>
      rw [hds] at h
      simp only [Option.map_some', Option.some.injEq] at h
      subst h
      simpa [DepNode.dependencies] using mixDeps_get? hds hi

/-- `relockTree` is `mixOne` at fuel `depHeight curTree`. -/
theorem relockTree_eq (cfg : Config) (prevT curT : DepNode) :
    relockTree cfg prevT curT = mixOne cfg (depHeight curT) curT prevT := rfl

/-! ## Shared concrete fixtures for the differ claims -/

def cfgNone : Config := ⟨[], litSearch⟩

def cfgProj : Config := ⟨["p"], litSearch⟩

def dLeaf (n v sv : String) : DepNode := .mk n v sv (n ++ "@" ++ v) [] "s0" []

def dMid (n v sv : String) (req : List (String × String)) (deps : List DepNode) : DepNode :=
  .mk n v sv (n ++ "@" ++ v) req "s1" deps

def dRoot (req : List (String × String)) (deps : List DepNode) : DepNode :=
  .mk "" "1.0.0" "" "" req "sr" deps

end Relock

namespace Relock

/-! ## Branch lemmas for the per-key relock decision -/

theorem mixChild_new {go : DepNode → DepNode → Option DepNode} {cfg : Config}
    {cur prev : DepNode} {key cv : String}
    (h : getKey prev.requires key = none) :
    mixChild go cfg cur prev key cv = findDep cur.dependencies key := by
  simp [mixChild, h]

theorem mixChild_notPatch {go : DepNode → DepNode → Option DepNode} {cfg : Config}
    {cur prev : DepNode} {key cv pv : String}
    (h : getKey prev.requires key = some pv) (hnp : notPatch cv pv = true) :
    mixChild go cfg cur prev key cv = findDep cur.dependencies key := by
  by_cases he : pv = ""
  · simp [mixChild, h, he]
  · simp [mixChild, h, he, hnp]

theorem mixChild_recurse {go : DepNode → DepNode → Option DepNode} {cfg : Config}
    {cur prev : DepNode} {key cv pv : String}
    (h : getKey prev.requires key = some pv) (hne : pv ≠ "")
    (hnp : notPatch cv pv = false)
    (hcond : (pv != cv || isProjectModule cfg key) = true) :
    mixChild go cfg cur prev key cv =
      match findDep cur.dependencies key, findDep prev.dependencies key with
      | some curChild, some prevChild => go curChild prevChild
      | _, _ => none := by
  simp [mixChild, h, hne, hnp, hcond]

theorem mixChild_keep {go : DepNode → DepNode → Option DepNode} {cfg : Config}
    {cur prev : DepNode} {key v : String}
    (h : getKey prev.requires key = some v) (hne : v ≠ "")
    (hproj : isProjectModule cfg key = false) :
    mixChild go cfg cur prev key v = findDep prev.dependencies key := by
  simp [mixChild, h, hne, notPatch_self, hproj]

theorem mixOne_meta {cfg : Config} {fuel : Nat} {cur prev md : DepNode}
    (h : mixOne cfg fuel cur prev = some md) :
    md.name = cur.name ∧ md.version = cur.version ∧ md.semVer = cur.semVer ∧
      md.tag = cur.tag ∧ md.requires = cur.requires ∧ md.signature = cur.signature := by
  cases fuel with
  | zero => rw [show mixOne cfg 0 cur prev = none from rfl] at h; cases h
  | succ k =>
    rw [mixOne_succ] at h
    cases hds : mixDeps (mixOne cfg k) cfg cur prev cur.requires with
    | none => rw [hds] at h; cases h
    | some ds =>
      rw [hds] at h
      simp only [Option.map_some', Option.some.injEq] at h
      subst h
      exact ⟨rfl, rfl, rfl, rfl, rfl, rfl⟩

/-! ## C3: non-patch range changes and new names adopt the current subtree -/

/-- C3: in `relockTree` (equivalently any recursion level `mixOne`), a
`requires` entry of the current node whose range changed at more than patch
granularity (`notPatch`), or whose name the previous node's `requires`
lacks, yields the current tree's subtree for that name verbatim — the very
node, with all its transitive dependencies — at the same position of the
mixed node's dependency list. -/
theorem relockTree_adopts_current_on_nonpatch_or_new
    (cfg : Config) (fuel : Nat) (prevT curT m : DepNode) (i : Nat)
    (key curVer : String) (c : DepNode)
    (h : mixOne cfg fuel curT prevT = some m ∨ relockTree cfg prevT curT = some m)
    (hi : curT.requires.get? i = some (key, curVer))
    (hc : findDep curT.dependencies key = some c)
    (hbranch : getKey prevT.requires key = none ∨
      ∃ prevVer, getKey prevT.requires key = some prevVer ∧ notPatch curVer prevVer = true) :
    m.dependencies.get? i = some c := by
  have hmix : ∃ f, mixOne cfg f curT prevT = some m := by
    rcases h with h | h
    · exact ⟨fuel, h⟩
    · exact ⟨depHeight curT, by rw [← relockTree_eq]; exact h⟩
  obtain ⟨f, hmix⟩ := hmix
  obtain ⟨k, _, hget⟩ := mixOne_child hmix hi
  rcases hbranch with hnone | ⟨pv, hpv, hnp⟩
  · rw [hget, mixChild_new hnone, hc]
  · rw [hget, mixChild_notPatch hpv hnp, hc]

def xPrev3 : DepNode := dLeaf "x" "1.0.0" "^1.0.0"

def cChild3 : DepNode := dLeaf "c" "1.0.0" "^1.0.0"

def xCur3 : DepNode := dMid "x" "2.0.0" "^2.0.0" [("c", "^1.0.0")] [cChild3]

def bCur3 : DepNode := dLeaf "b" "1.0.0" "^1.0.0"

def prevR3 : DepNode := dRoot [("x", "^1.0.0")] [xPrev3]

def curR3 : DepNode := dRoot [("x", "^2.0.0"), ("b", "^1.0.0")] [xCur3, bCur3]

def mixR3 : DepNode := .mk "" "1.0.0" "" "" [("x", "^2.0.0"), ("b", "^1.0.0")] "sr" [xCur3, bCur3]

/-- C3 witness: a minor/major bump (`^1.0.0` to `^2.0.0`) adopts the
current `x` subtree (with its transitive child `c`) verbatim, and a new
name `b` adopts the current subtree. -/
theorem relockTree_adopts_current_on_nonpatch_or_new_witness :
    relockTree cfgNone prevR3 curR3 = some mixR3 ∧
    curR3.requires.get? 0 = some ("x", "^2.0.0") ∧
    getKey prevR3.requires "x" = some "^1.0.0" ∧
    notPatch "^2.0.0" "^1.0.0" = true ∧
    curR3.requires.get? 1 = some ("b", "^1.0.0") ∧
    getKey prevR3.requires "b" = none ∧
    mixR3.dependencies.get? 0 = some xCur3 ∧
    mixR3.dependencies.get? 1 = some bCur3 :=
  ⟨rfl, rfl, rfl, rfl, rfl, rfl,
   relockTree_adopts_current_on_nonpatch_or_new cfgNone 1 prevR3 curR3 mixR3 0
     "x" "^2.0.0" xCur3 (Or.inr rfl) rfl rfl (Or.inr ⟨"^1.0.0", rfl, rfl⟩),
   relockTree_adopts_current_on_nonpatch_or_new cfgNone 1 prevR3 curR3 mixR3 1
     "b" "^1.0.0" bCur3 (Or.inr rfl) rfl rfl (Or.inl rfl)⟩

end Relock

namespace Relock

/-! ## C1: identical non-empty ranges keep the previous subtree -/

def xPrev1 : DepNode := dLeaf "x" "1.0.0" ""

def xCur1 : DepNode := dLeaf "x" "2.0.0" ""

def prevR1 : DepNode := dRoot [("x", "")] [xPrev1]

def curR1 : DepNode := dRoot [("x", "")] [xCur1]

/-- C1 counterexample: a name whose range string is *identical* in both
trees but empty (`""` is falsy in JS, so `if (!prevVer)` treats it as a
new dependency) and which is not a project module takes the *current*
subtree (`x@2.0.0`), not the previous subtree (`x@1.0.0`) the claim
requires. -/
theorem relockTree_identical_empty_range_takes_current :
    getKey curR1.requires "x" = some "" ∧
    getKey prevR1.requires "x" = some "" ∧
    isProjectModule cfgNone "x" = false ∧
    (findDep prevR1.dependencies "x").map DepNode.version = some "1.0.0" ∧
    (relockTree cfgNone prevR1 curR1).map (fun m => m.dependencies.map DepNode.version) =
      some ["2.0.0"] :=
  ⟨rfl, rfl, rfl, rfl, rfl⟩

/-- C1 (amended: the identical range must be non-empty, since JS treats a
falsy `prevVer` as a missing previous entry): in `relockTree`
(equivalently any recursion level `mixOne`), a `requires` entry of the
current node whose non-empty range string equals the previous node's range
for that name, and whose name does not match a project-module pattern,
yields the previous tree's subtree for that name verbatim at the same
position of the mixed node's dependency list — the current resolution for
that branch is discarded. -/
theorem relockTree_keeps_previous_on_identical_range
    (cfg : Config) (fuel : Nat) (prevT curT m : DepNode) (i : Nat)
    (key ver : String) (p : DepNode)
    (h : mixOne cfg fuel curT prevT = some m ∨ relockTree cfg prevT curT = some m)
    (hi : curT.requires.get? i = some (key, ver))
    (hprev : getKey prevT.requires key = some ver)
    (hne : ver ≠ "")
    (hproj : isProjectModule cfg key = false)
    (hp : findDep prevT.dependencies key = some p) :
    m.dependencies.get? i = some p := by
  have hmix : ∃ f, mixOne cfg f curT prevT = some m := by
    rcases h with h | h
    · exact ⟨fuel, h⟩
    · exact ⟨depHeight curT, by rw [← relockTree_eq]; exact h⟩
  obtain ⟨f, hmix⟩ := hmix
  obtain ⟨k, _, hget⟩ := mixOne_child hmix hi
  rw [hget, mixChild_keep hprev hne hproj, hp]

def xPrev1w : DepNode := dLeaf "x" "1.0.3" "^1.0.0"

def xCur1w : DepNode := dLeaf "x" "1.0.4" "^1.0.0"

def prevR1w : DepNode := dRoot [("x", "^1.0.0")] [xPrev1w]

def curR1w : DepNode := dRoot [("x", "^1.0.0")] [xCur1w]

def mixR1w : DepNode := .mk "" "1.0.0" "" "" [("x", "^1.0.0")] "sr" [xPrev1w]

/-- C1 witness: `x` requested as `^1.0.0` in both trees (not a project
module) stays at the previously locked `x@1.0.3` even though the current
tree resolved `x@1.0.4`. -/
theorem relockTree_keeps_previous_on_identical_range_witness :
    relockTree cfgNone prevR1w curR1w = some mixR1w ∧
    curR1w.requires.get? 0 = some ("x", "^1.0.0") ∧
    getKey prevR1w.requires "x" = some "^1.0.0" ∧
    isProjectModule cfgNone "x" = false ∧
    mixR1w.dependencies.get? 0 = some xPrev1w ∧
    xPrev1w.version = "1.0.3" :=
  ⟨rfl, rfl, rfl, rfl,
   relockTree_keeps_previous_on_identical_range cfgNone 1 prevR1w curR1w mixR1w 0
     "x" "^1.0.0" xPrev1w (Or.inr rfl) rfl rfl (by decide) rfl rfl,
   rfl⟩

/-! ## C2: patch-granularity range changes -/

def cPrev2 : DepNode := dLeaf "c" "2.0.1" "^2.0.0"

def cCur2 : DepNode := dLeaf "c" "2.0.2" "^2.0.0"

def xPrev2 : DepNode := dMid "x" "1.2.3" "^1.2.0" [("c", "^2.0.0")] [cPrev2]

def xCur2 : DepNode := dMid "x" "1.2.5" "^1.2.5" [("c", "^2.0.0")] [cCur2]

def prevR2 : DepNode := dRoot [("x", "^1.2.0")] [xPrev2]

def curR2 : DepNode := dRoot [("x", "^1.2.5")] [xCur2]

/-- C2 counterexample: with `requires["x"]` changed `^1.2.0` to `^1.2.5`
(patch-only) and the previous resolution `x@1.2.3`, the relocked tree
carries `x` at the *current* `1.2.5` (the patch-level change takes the
`prevVer != curVer` recursion branch, which copies the current node's own
metadata), not the previous subtree unchanged as the claim requires. -/
theorem relockTree_patch_change_keeps_current_node :
    getKey prevR2.requires "x" = some "^1.2.0" ∧
    curR2.requires.get? 0 = some ("x", "^1.2.5") ∧
    notPatch "^1.2.5" "^1.2.0" = false ∧
    (findDep prevR2.dependencies "x").map DepNode.version = some "1.2.3" ∧
    (findDep curR2.dependencies "x").map DepNode.version = some "1.2.5" ∧
    (relockTree cfgNone prevR2 curR2).map (fun m => m.dependencies.map DepNode.version) =
      some ["1.2.5"] :=
  ⟨rfl, rfl, rfl, rfl, rfl, rfl⟩

/-- C2 (amended: a patch-only range *change* does not keep the previous
subtree wholesale; it re-examines the child): in `relockTree`
(equivalently `mixOne`), a `requires` entry whose range changed but not
beyond patch granularity yields the recursive mix of the current and
previous child subtrees: the mixed child carries the *current* child's own
name/version/metadata, and each grandchild is decided by the same policy
(so children with unchanged ranges keep their previous subtrees). -/
theorem relockTree_reexamines_on_patch_level_change :
    (∀ (cfg : Config) (fuel : Nat) (prevT curT m : DepNode) (i : Nat)
       (key cv pv : String) (cc pp : DepNode),
      mixOne cfg (fuel + 1) curT prevT = some m →
      curT.requires.get? i = some (key, cv) →
      getKey prevT.requires key = some pv →
      pv ≠ "" → notPatch cv pv = false → pv ≠ cv →
      findDep curT.dependencies key = some cc →
      findDep prevT.dependencies key = some pp →
      m.dependencies.get? i = mixOne cfg fuel cc pp ∧
        ∀ md, mixOne cfg fuel cc pp = some md →
          md.name = cc.name ∧ md.version = cc.version ∧ md.semVer = cc.semVer ∧
            md.tag = cc.tag ∧ md.requires = cc.requires ∧ md.signature = cc.signature) ∧
    (∀ (cfg : Config) (prevT curT m : DepNode) (i : Nat)
       (key cv pv : String) (cc pp : DepNode),
      relockTree cfg prevT curT = some m →
      curT.requires.get? i = some (key, cv) →
      getKey prevT.requires key = some pv →
      pv ≠ "" → notPatch cv pv = false → pv ≠ cv →
      findDep curT.dependencies key = some cc →
      findDep prevT.dependencies key = some pp →
      ∃ k, depHeight curT = k + 1 ∧ m.dependencies.get? i = mixOne cfg k cc pp) := by
  have part1 : ∀ (cfg : Config) (fuel : Nat) (prevT curT m : DepNode) (i : Nat)
       (key cv pv : String) (cc pp : DepNode),
      mixOne cfg (fuel + 1) curT prevT = some m →
      curT.requires.get? i = some (key, cv) →
      getKey prevT.requires key = some pv →
      pv ≠ "" → notPatch cv pv = false → pv ≠ cv →
      findDep curT.dependencies key = some cc →
      findDep prevT.dependencies key = some pp →
      m.dependencies.get? i = mixOne cfg fuel cc pp := by
    intro cfg fuel prevT curT m i key cv pv cc pp h hi hpv hne hnp hpvcv hcc hpp
    obtain ⟨k, hk, hget⟩ := mixOne_child h hi
    have hkf : k = fuel := by omega
    subst hkf
    rw [hget, mixChild_recurse hpv hne hnp (by simp [bne_iff_ne, hpvcv]), hcc, hpp]
  refine ⟨fun cfg fuel prevT curT m i key cv pv cc pp h hi hpv hne hnp hpvcv hcc hpp =>
    ⟨part1 cfg fuel prevT curT m i key cv pv cc pp h hi hpv hne hnp hpvcv hcc hpp,
     fun md hmd => mixOne_meta hmd⟩, ?_⟩
  intro cfg prevT curT m i key cv pv cc pp h hi hpv hne hnp hpvcv hcc hpp
  have h1 : mixOne cfg (depHeight curT) curT prevT = some m := by rw [← relockTree_eq]; exact h
  obtain ⟨k, hk⟩ : ∃ k, depHeight curT = k + 1 :=
    ⟨depHeight curT - 1, by have := depHeight_pos curT; omega⟩
  rw [hk] at h1
  exact ⟨k, hk, part1 cfg k prevT curT m i key cv pv cc pp h1 hi hpv hne hnp hpvcv hcc hpp⟩

def xMix2 : DepNode := .mk "x" "1.2.5" "^1.2.5" "x@1.2.5" [("c", "^2.0.0")] "s1" [cPrev2]

def mixR2 : DepNode := .mk "" "1.0.0" "" "" [("x", "^1.2.5")] "sr" [xMix2]

/-- C2 witness: the `^1.2.0` to `^1.2.5` bump recurses into `x`; the mixed
`x` carries the current `1.2.5` metadata while its child `c` (range
unchanged) keeps the previous `c@2.0.1`. -/
theorem relockTree_reexamines_on_patch_level_change_witness :
    mixOne cfgNone 2 curR2 prevR2 = some mixR2 ∧
    mixR2.dependencies.get? 0 = mixOne cfgNone 1 xCur2 xPrev2 ∧
    mixOne cfgNone 1 xCur2 xPrev2 = some xMix2 ∧
    xMix2.version = "1.2.5" ∧
    xMix2.dependencies.map DepNode.version = ["2.0.1"] :=
  ⟨rfl,
   (relockTree_reexamines_on_patch_level_change.1 cfgNone 1 prevR2 curR2 mixR2 0
     "x" "^1.2.5" "^1.2.0" xCur2 xPrev2 rfl rfl rfl (by decide) rfl (by decide) rfl rfl).1,
   rfl, rfl, rfl⟩

end Relock

namespace Relock

/-! ## C4: project modules -/

def cPrev4 : DepNode := dLeaf "c" "2.0.1" "^2.0.0"

def cCur4 : DepNode := dLeaf "c" "9.9.9" "^2.0.0"

def pPrev4 : DepNode := dMid "p" "1.0.0" "^1.0.0" [("c", "^2.0.0")] [cPrev4]

def pCur4 : DepNode := dMid "p" "2.0.0" "^2.0.0" [("c", "^2.0.0")] [cCur4]

def prevR4 : DepNode := dRoot [("p", "^1.0.0")] [pPrev4]

def curR4 : DepNode := dRoot [("p", "^2.0.0")] [pCur4]

/-- C4 counterexample: the `notPatch` branch is tested *before* the
project-module test, so a project module whose range changed at more than
patch granularity (`^1.0.0` to `^2.0.0`) takes the current subtree
wholesale — the mixed tree carries the current `p` node itself, child
`c@9.9.9` included, whereas re-examination (the recursive mix of the two
`p` subtrees) would have kept the previous `c@2.0.1` since `c`'s own range
is unchanged. -/
theorem relockTree_project_module_major_change_not_reexamined :
    isProjectModule cfgProj "p" = true ∧
    getKey prevR4.requires "p" = some "^1.0.0" ∧
    curR4.requires.get? 0 = some ("p", "^2.0.0") ∧
    notPatch "^2.0.0" "^1.0.0" = true ∧
    (relockTree cfgProj prevR4 curR4).map DepNode.dependencies = some [pCur4] ∧
    (mixOne cfgProj 2 pCur4 pPrev4).map (fun md => md.dependencies.map DepNode.version) =
      some ["2.0.1"] ∧
    pCur4.dependencies.map DepNode.version = ["9.9.9"] :=
  ⟨rfl, rfl, rfl, rfl, rfl, rfl, rfl⟩

/-- C4 (amended: a project module is re-examined only when it already
appeared in the previous node's `requires` with a non-empty range whose
change is at most patch granularity — including a completely unchanged
range, which is the override of the keep-previous rule; a new project
module, or one whose range changed at major/minor granularity, adopts the
current subtree wholesale like any other dependency): under those
conditions the mixed child is the recursive mix of the current and
previous child subtrees, never a wholesale copy of either side at that
decision point. -/
theorem relockTree_project_module_reexamined :
    (∀ (cfg : Config) (fuel : Nat) (prevT curT m : DepNode) (i : Nat)
       (key cv pv : String) (cc pp : DepNode),
      mixOne cfg (fuel + 1) curT prevT = some m →
      curT.requires.get? i = some (key, cv) →
      isProjectModule cfg key = true →
      getKey prevT.requires key = some pv →
      pv ≠ "" → notPatch cv pv = false →
      findDep curT.dependencies key = some cc →
      findDep prevT.dependencies key = some pp →
      m.dependencies.get? i = mixOne cfg fuel cc pp ∧
        ∀ md, mixOne cfg fuel cc pp = some md →
          md.name = cc.name ∧ md.version = cc.version ∧ md.requires = cc.requires) ∧
    (∀ (cfg : Config) (prevT curT m : DepNode) (i : Nat)
       (key cv pv : String) (cc pp : DepNode),
      relockTree cfg prevT curT = some m →
      curT.requires.get? i = some (key, cv) →
      isProjectModule cfg key = true →
      getKey prevT.requires key = some pv →
      pv ≠ "" → notPatch cv pv = false →
      findDep curT.dependencies key = some cc →
      findDep prevT.dependencies key = some pp →
      ∃ k, depHeight curT = k + 1 ∧ m.dependencies.get? i = mixOne cfg k cc pp) := by
  have part1 : ∀ (cfg : Config) (fuel : Nat) (prevT curT m : DepNode) (i : Nat)
       (key cv pv : String) (cc pp : DepNode),
      mixOne cfg (fuel + 1) curT prevT = some m →
      curT.requires.get? i = some (key, cv) →
      isProjectModule cfg key = true →
      getKey prevT.requires key = some pv →
      pv ≠ "" → notPatch cv pv = false →
      findDep curT.dependencies key = some cc →
      findDep prevT.dependencies key = some pp →
      m.dependencies.get? i = mixOne cfg fuel cc pp := by
    intro cfg fuel prevT curT m i key cv pv cc pp h hi hproj hpv hne hnp hcc hpp
    obtain ⟨k, hk, hget⟩ := mixOne_child h hi
    have hkf : k = fuel := by omega
    subst hkf
    rw [hget, mixChild_recurse hpv hne hnp (by simp [hproj]), hcc, hpp]
  refine ⟨fun cfg fuel prevT curT m i key cv pv cc pp h hi hproj hpv hne hnp hcc hpp =>
    ⟨part1 cfg fuel prevT curT m i key cv pv cc pp h hi hproj hpv hne hnp hcc hpp,
     fun md hmd => ⟨(mixOne_meta hmd).1, (mixOne_meta hmd).2.1, (mixOne_meta hmd).2.2.2.2.1⟩⟩, ?_⟩
  intro cfg prevT curT m i key cv pv cc pp h hi hproj hpv hne hnp hcc hpp
  have h1 : mixOne cfg (depHeight curT) curT prevT = some m := by rw [← relockTree_eq]; exact h
  obtain ⟨k, hk⟩ : ∃ k, depHeight curT = k + 1 :=
    ⟨depHeight curT - 1, by have := depHeight_pos curT; omega⟩
  rw [hk] at h1
  exact ⟨k, hk, part1 cfg k prevT curT m i key cv pv cc pp h1 hi hproj hpv hne hnp hcc hpp⟩

def cCur4w : DepNode := dLeaf "c" "2.0.2" "^2.0.0"

def pCur4w : DepNode := dMid "p" "1.0.1" "^1.0.0" [("c", "^2.0.0")] [cCur4w]

def prevR4w : DepNode := dRoot [("p", "^1.0.0")] [pPrev4]

def curR4w : DepNode := dRoot [("p", "^1.0.0")] [pCur4w]

def pMix4w : DepNode := .mk "p" "1.0.1" "^1.0.0" "p@1.0.1" [("c", "^2.0.0")] "s1" [cPrev4]

def mixR4w : DepNode := .mk "" "1.0.0" "" "" [("p", "^1.0.0")] "sr" [pMix4w]

/-- C4 witness: the project module `p` with a completely *unchanged* range
`^1.0.0` is still recursed into (a non-project name would have kept the
previous subtree wholesale): the mixed `p` carries the current `1.0.1`
metadata while its child `c` keeps the previous `c@2.0.1`. -/
theorem relockTree_project_module_reexamined_witness :
    isProjectModule cfgProj "p" = true ∧
    mixOne cfgProj 2 curR4w prevR4w = some mixR4w ∧
    mixR4w.dependencies.get? 0 = mixOne cfgProj 1 pCur4w pPrev4 ∧
    mixOne cfgProj 1 pCur4w pPrev4 = some pMix4w ∧
    pMix4w.version = "1.0.1" ∧
    pMix4w.dependencies.map DepNode.version = ["2.0.1"] :=
  ⟨rfl, rfl,
   (relockTree_project_module_reexamined.1 cfgProj 1 prevR4w curR4w mixR4w 0
     "p" "^1.0.0" "^1.0.0" pCur4w pPrev4 rfl rfl rfl rfl (by decide) rfl rfl rfl).1,
   rfl, rfl, rfl⟩

end Relock

namespace Relock

/-! ## C8: signature determinism -/

def sigEmpty : String := getTreeSignature []

def cA8 : DepNode := .mk "c" "1.0.0" "^1.0.0" "c@1.0.0" [] sigEmpty []

def cB8 : DepNode := .mk "c" "1.0.0" "^1.0.1" "c@1.0.0" [] sigEmpty []

def nodeA8 : DepNode := .mk "a" "2.0.0" "^2.0.0" "a@2.0.0" [] (getTreeSignature [cA8]) [cA8]

def nodeB8 : DepNode := .mk "a" "2.0.0" "^2.0.0" "a@2.0.0" [] (getTreeSignature [cB8]) [cB8]

/-- C8 counterexample: `nodeA8` and `nodeB8` have identical name, identical
version, and recursively identical child signatures (their single children
carry the same signature `md5("[]")`, the same name, version and tag, and
both have empty dependency lists), yet their signatures differ, because
`JSON.stringify` also serializes each child's `semVer` (the requested
range), which differs (`^1.0.0` vs `^1.0.1`). -/
theorem getTreeSignature_not_determined_by_child_signatures :
    nodeA8.name = nodeB8.name ∧
    nodeA8.version = nodeB8.version ∧
    nodeA8.dependencies.map DepNode.name = nodeB8.dependencies.map DepNode.name ∧
    nodeA8.dependencies.map DepNode.version = nodeB8.dependencies.map DepNode.version ∧
    nodeA8.dependencies.map DepNode.signature = nodeB8.dependencies.map DepNode.signature ∧
    nodeA8.dependencies.map DepNode.dependencies = [[]] ∧
    nodeB8.dependencies.map DepNode.dependencies = [[]] ∧
    getTreeSignature nodeA8.dependencies ≠ getTreeSignature nodeB8.dependencies :=
  ⟨rfl, rfl, rfl, rfl, rfl, rfl, rfl, by decide⟩

/-- C8 (amended: equality of name, version and child signatures alone does
not determine the signature; equality of the full serialized child content
does): `getTreeSignature` is a deterministic pure function of the
serialized dependencies content — two dependency lists with equal
serializations (in particular, structurally equal lists, i.e. recursively
identical children including each child's `semVer` and `requires`) hash
identically; no memory address, timestamp, or iteration-order input
exists. -/
theorem getTreeSignature_pure_function_of_serialization :
    (∀ d1 d2 : List DepNode, stringifyArr d1 = stringifyArr d2 →
      getTreeSignature d1 = getTreeSignature d2) ∧
    (∀ A B : DepNode, A.dependencies = B.dependencies →
      getTreeSignature A.dependencies = getTreeSignature B.dependencies) :=
  ⟨fun _ _ h => by rw [getTreeSignature, getTreeSignature, h],
   fun _ _ h => by rw [h]⟩

def cA8Copy : DepNode := .mk "c" "1.0.0" "^1.0.0" ("c" ++ "@" ++ "1.0.0") [] sigEmpty []

/-- C8 witness: two separately constructed but structurally identical
dependency lists receive the same signature. -/
theorem getTreeSignature_pure_function_of_serialization_witness :
    stringifyArr [cA8] = stringifyArr [cA8Copy] ∧
    getTreeSignature [cA8] = getTreeSignature [cA8Copy] ∧
    getTreeSignature [cA8] = "6d9f6736b7a32293bf75f5fffbc4c168" :=
  ⟨rfl, getTreeSignature_pure_function_of_serialization.1 [cA8] [cA8Copy] rfl, by decide⟩

/-! ## C5: missing required module -/

def missingLock : LockNode := .mk "1.0.0" [("x", "^1.0.0")] []

/-- C5: the lock file requires `x` but contains no entry for it anywhere.
The spec mandates a fatal `MissingRequiredModule` error, and the code even
contains `throw new Error('required module … not found…')` — but that
guard is unreachable: `getNode` falls back to the node it already has when
a path part is missing, so `find` always returns an object (here the lock
*root* itself), and the run completes, emitting a bogus tree in which `x`
carries the root's version `1.0.0` and the root's `requires`.  This
evaluation exhibits the silent completion on the failing input. -/
theorem generateDependencyTree_missing_module_no_error :
    getKey missingLock.dependencies "x" = none ∧
    findLock missingLock (buildPaths missingLock) "x" [] = some missingLock ∧
    ((generateDependencyTree missingLock initState).map fun r =>
      r.1.dependencies.map DepNode.tag) = some ["x@1.0.0"] ∧
    ((generateDependencyTree missingLock initState).map fun r =>
      r.1.dependencies.map DepNode.requires) = some [[("x", "^1.0.0")]] :=
  ⟨rfl, rfl, rfl, rfl⟩

end Relock

namespace Relock

/-! ## Association-list lemmas -/

theorem getKey_setKey {α : Type} (m : List (String × α)) (k k' : String) (v : α) :
    getKey (setKey m k v) k' = if k = k' then some v else getKey m k' := by
  induction m with
  | nil => by_cases h : k = k' <;> simp [setKey, getKey, h]
  | cons kv rest ih =>
    obtain ⟨k0, v0⟩ := kv
    by_cases h0 : k0 = k
    · subst h0
      by_cases h1 : k0 = k' <;> simp [setKey, getKey, h1]
    · by_cases h1 : k0 = k' <;> by_cases h2 : k = k' <;>
        simp_all [setKey, getKey, h0, h1]

theorem containsKey_setKey {α : Type} (m : List (String × α)) (k k' : String) (v : α) :
    containsKey (setKey m k v) k' = (decide (k = k') || containsKey m k') := by
  rw [containsKey, getKey_setKey]
  by_cases h : k = k' <;> simp [h, containsKey]

theorem containsKey_setKey_mono {α : Type} {m : List (String × α)} {k' : String}
    (k : String) (v : α) (h : containsKey m k' = true) :
    containsKey (setKey m k v) k' = true := by
  rw [containsKey_setKey, h, Bool.or_true]

/-! ## State growth: the global caches only gain keys -/

/-- The keys of the module-global `dependencyTrees` and `versions` indices
of `st` all survive into `st'`. -/
def StGrows (st st' : BState) : Prop :=
  (∀ k, containsKey st.dependencyTrees k = true → containsKey st'.dependencyTrees k = true) ∧
  (∀ k, containsKey st.versions k = true → containsKey st'.versions k = true)

theorem stGrows_refl (st : BState) : StGrows st st :=
  ⟨fun _ h => h, fun _ h => h⟩

theorem stGrows_trans {a b c : BState} (h1 : StGrows a b) (h2 : StGrows b c) : StGrows a c :=
  ⟨fun k h => h2.1 k (h1.1 k h), fun k h => h2.2 k (h1.2 k h)⟩

theorem oneKids_mono {go : List String → BState → Option (List DepNode × BState)}
    {root : LockNode} {lockPaths path : List String}
    (hgo : ∀ p st res st', go p st = some (res, st') → StGrows st st') :
    ∀ reqs st res st', oneKids go root lockPaths path reqs st = some (res, st') →
      StGrows st st' := by
  intro reqs
  induction reqs with
  | nil =>
    intro st res st' h
    rw [oneKids] at h
    cases h
    exact stGrows_refl st
  | cons kv rest ih =>
    intro st res st' h
    obtain ⟨nm, semVer⟩ := kv
    rw [oneKids] at h
    split at h
    · cases h
    · split at h
      · cases h
      · rename_i mtch hfl
        dsimp only at h
        split at h
        · cases h
        · rename_i r2 hgo1
          split at h
          · cases h
          · rename_i r4 hrest
            cases h
            refine stGrows_trans ?_ (stGrows_trans (hgo _ _ _ _ hgo1)
              (stGrows_trans ?_ (ih _ _ _ hrest)))
            · exact ⟨fun k h => h, fun k h => containsKey_setKey_mono _ _ h⟩
            · exact ⟨fun k h => containsKey_setKey_mono _ _ h, fun k h => h⟩

theorem one_mono :
    ∀ (fuel : Nat) (root : LockNode) (lockPaths stack path : List String)
      (st : BState) (res : List DepNode) (st' : BState),
      one root lockPaths fuel stack path st = some (res, st') → StGrows st st' := by
  intro fuel
  induction fuel with
  | zero =>
    intro root lockPaths stack path st res st' h
    rw [show one root lockPaths 0 stack path st = none from rfl] at h
    cases h
  | succ k ih =>
    intro root lockPaths stack path st res st' h
    rw [one] at h
    split at h
    · cases h
    · split at h
      · cases h
        exact stGrows_refl st
      · split at h
        · cases h
        · split at h
          · cases h
            exact stGrows_refl st
          · dsimp only at h
            split at h
            · cases h
            · rename_i r2 hkids
              cases h
              exact stGrows_trans
                (oneKids_mono (fun p s r s' hh => ih root lockPaths _ p s r s' hh)
                  _ st r2.1 r2.2 hkids)
                ⟨fun k h => h, fun k h => h⟩

theorem generateDependencyTree_mono {root : LockNode} {st : BState} {tree : DepNode}
    {st' : BState} (h : generateDependencyTree root st = some (tree, st')) :
    StGrows st st' := by
  rw [generateDependencyTree] at h
  simp only at h
  cases hone : one root (buildPaths root) ((buildPaths root).length + 1) [] []
      { st with processed := [] } with
  | none => rw [hone] at h; cases h
  | some r =>
    obtain ⟨result, st1⟩ := r
    rw [hone] at h
    cases h
    have h1 : StGrows st { st with processed := [] } := ⟨fun k h => h, fun k h => h⟩
    refine stGrows_trans h1 (stGrows_trans (one_mono _ _ _ _ _ _ _ _ hone) ?_)
    exact ⟨fun k h => containsKey_setKey_mono _ _ h, fun k h => h⟩

end Relock

namespace Relock

/-! ## C9: cache scoping -/

def prevL9 : LockNode := .mk "1.0.0" [("a", "^1.0.0")]
  [("a", .mk "1.0.3" [("c", "^2.0.0")] []), ("c", .mk "2.0.1" [] [])]

def curL9 : LockNode := .mk "1.0.0" [("a", "^1.0.0"), ("b", "^1.0.0")]
  [("a", .mk "1.0.4" [("c", "^2.0.0")] []), ("c", .mk "2.0.2" [] []), ("b", .mk "1.0.0" [] [])]

/-- The state left by the previous-lock build, exactly as `relock` threads
it into the current-lock build. -/
def prevBuildState9 : BState :=
  ((generateDependencyTree prevL9 initState).map Prod.snd).getD initState

/-- The signature of the previous build's `a@1.0.3` subtree: a
`dependencyTrees` key only the previous-lock build produces. -/
def sharedKey9 : String := "7c56e7832157c8e6a6d5c5ddcc6d46d2"

/-- C9 counterexample: `dependencyTrees` is a module-level global, written
by every build and never cleared.  Inside one `relock` call the
current-lock build receives the previous build's state (first two facts)
and still carries the previous build's entry afterwards, whereas the same
current-lock build run in isolation never produces that key (last fact) —
so the signature-to-subtree index *is* shared between the previous-lock
and current-lock builds, contradicting the claim. -/
theorem dependencyTrees_shared_across_builds :
    containsKey prevBuildState9.dependencyTrees sharedKey9 = true ∧
    ((generateDependencyTree curL9 prevBuildState9).map fun r =>
      containsKey r.2.dependencyTrees sharedKey9) = some true ∧
    ((generateDependencyTree curL9 initState).map fun r =>
      containsKey r.2.dependencyTrees sharedKey9) = some false :=
  ⟨rfl, rfl, rfl⟩

/-- C9 (amended: only the per-lock-path `processed` table is scoped to a
single `generateDependencyTree` invocation — it is created fresh at entry,
so the result never depends on any ambient `processed` state; the
signature-to-subtree index `dependencyTrees` and the `versions` store are
module-global: every key present before a build, in particular every key
written by the previous-lock build within one `relock` call, is still
present after the current-lock build): -/
theorem processed_fresh_and_global_caches_persist :
    (∀ (root : LockNode) (st : BState) (p : List (String × List DepNode)),
      generateDependencyTree root ⟨st.dependencyTrees, st.versions, p⟩ =
        generateDependencyTree root st) ∧
    (∀ (root : LockNode) (st : BState) (tree : DepNode) (st' : BState),
      generateDependencyTree root st = some (tree, st') →
      (∀ k, containsKey st.dependencyTrees k = true →
        containsKey st'.dependencyTrees k = true) ∧
      (∀ k, containsKey st.versions k = true → containsKey st'.versions k = true)) :=
  ⟨fun root st p => rfl, fun root st tree st' h => generateDependencyTree_mono h⟩

/-- C9 witness: the persistence half applied to the concrete two-build run
of `relock` on `prevL9`/`curL9`, and the freshness half applied to a
pre-polluted `processed` table. -/
theorem processed_fresh_and_global_caches_persist_witness :
    generateDependencyTree curL9 ⟨prevBuildState9.dependencyTrees, prevBuildState9.versions,
      [("junk", [])]⟩ = generateDependencyTree curL9 prevBuildState9 ∧
    containsKey prevBuildState9.dependencyTrees sharedKey9 = true ∧
    ((generateDependencyTree curL9 prevBuildState9).map fun r =>
      containsKey r.2.dependencyTrees sharedKey9) = some true := by
  refine ⟨processed_fresh_and_global_caches_persist.1 curL9 prevBuildState9 [("junk", [])],
    rfl, ?_⟩
  have hs : (generateDependencyTree curL9 prevBuildState9).isSome = true := rfl
  cases hrun : generateDependencyTree curL9 prevBuildState9 with
  | none => rw [hrun] at hs; cases hs
  | some r =>
    obtain ⟨tree, st2⟩ := r
    have hmono := (processed_fresh_and_global_caches_persist.2 curL9 prevBuildState9
      tree st2 hrun).1 sharedKey9 rfl
    simpa using hmono

end Relock

namespace Relock

/-! ## C7: hoisting placement -/

theorem addGo_own_fields (name version variant : String) (sp : List String) (node : PNode) :
    (addGo name version variant sp node).name = node.name ∧
    (addGo name version variant sp node).version = node.version ∧
    (addGo name version variant sp node).variant = node.variant := by
  cases sp with
  | nil =>
    rw [addGo]
    split
    · split
      · exact ⟨rfl, rfl, rfl⟩
      · exact ⟨rfl, rfl, rfl⟩
    · exact ⟨rfl, rfl, rfl⟩
  | cons part rest =>
    rw [addGo]
    split
    · split
      · exact ⟨rfl, rfl, rfl⟩
      · split
        · exact ⟨rfl, rfl, rfl⟩
        · exact ⟨rfl, rfl, rfl⟩
    · exact ⟨rfl, rfl, rfl⟩

def xv7 (v sg : String) : DepNode := .mk "x" v "^1.0.0" ("x@" ++ v) [] sg []

def mixed7 : DepNode := .mk "" "1.0.0" "" "" [] "rs"
  [ .mk "a" "1.0.0" "^1" "a@1.0.0" [] "sa"
      [ xv7 "2.0.0" "s2",
        .mk "b" "1.0.0" "^1" "b@1.0.0" [] "sb" [ xv7 "3.0.0" "s3" ] ],
    xv7 "1.0.0" "s1" ]

def modules7 : List Module := sortByCmp cmpModule (biNode mixed7 [] [])

def part7 : PNode := (modules7.take 4).foldl hoistOne (.mk "" "1.0.0" "" [])

/-- C7 counterexample: in the hoist of `mixed7` (root requires `a` and
`x@1.0.0`; `a` requires `x@2.0.0` and `b`; `b` requires `x@3.0.0`), after
the first four modules are placed, the slot `a → x` is occupied by the
variant `x|2.0.0|s2`.  Placing the last module `x|3.0.0|s3` at its path
`a|b|x` conflicts at the root (`x|1.0.0|s1`), descends into `a`, conflicts
again (`x|2.0.0|s2`), and then — since `a` has no placement child `b`
(`b` was hoisted to the root) — *inserts over the occupied slot*: the
final tree holds `x|3.0.0|s3` at `a → x` and the previously placed
different variant `x|2.0.0|s2` has been removed. -/
theorem flattenTree_overwrites_occupied_slot :
    modules7.map Module.variant =
      ["a|1.0.0|sa", "x|1.0.0|s1", "b|1.0.0|sb", "x|2.0.0|s2", "x|3.0.0|s3"] ∧
    flattenTree mixed7 = add part7 "a|b|x" "x|3.0.0|s3" ∧
    ((getKey part7.dependencies "a").map fun a =>
      (getKey a.dependencies "x").map PNode.variant) = some (some "x|2.0.0|s2") ∧
    ((getKey part7.dependencies "a").map fun a => getKey a.dependencies "b") = some none ∧
    ((getKey (flattenTree mixed7).dependencies "a").map fun a =>
      (getKey a.dependencies "x").map PNode.variant) = some (some "x|3.0.0|s3") :=
  ⟨rfl, rfl, rfl, rfl, rfl⟩

/-- C7 (amended: the occupied-slot protections hold only while the descent
can proceed): during hoisting, placing a variant at a path behaves as
follows at each placement node — if the name slot holds the *same*
variant, the placement is a no-op; if it holds a *different* variant and
the node has a placement child for the next remaining path component,
placement descends into that child and retries, and the occupant of the
name slot keeps its variant; if the name slot is free, the variant is
inserted there; but if the slot holds a different variant and there is no
child for the next path component (or the path is exhausted), the variant
is inserted at this node *over the different-variant occupant* — the one
case in which placement does overwrite. -/
theorem addGo_placement_policy :
    (∀ (name version variant : String) (sp : List String) (node f : PNode),
      getKey node.dependencies name = some f → f.variant = variant →
      addGo name version variant sp node = node) ∧
    (∀ (name version variant part : String) (rest : List String) (node f child : PNode),
      getKey node.dependencies name = some f → f.variant ≠ variant →
      getKey node.dependencies part = some child →
      addGo name version variant (part :: rest) node =
        setChild node part (addGo name version variant rest child) ∧
      (getKey (addGo name version variant (part :: rest) node).dependencies name).map
          PNode.variant = some f.variant) ∧
    (∀ (name version variant : String) (sp : List String) (node : PNode),
      getKey node.dependencies name = none →
      addGo name version variant sp node = insertDep node name version variant) ∧
    (∀ (name version variant part : String) (rest : List String) (node f : PNode),
      getKey node.dependencies name = some f → f.variant ≠ variant →
      getKey node.dependencies part = none →
      addGo name version variant (part :: rest) node = insertDep node name version variant) ∧
    (∀ (name version variant : String) (node f : PNode),
      getKey node.dependencies name = some f → f.variant ≠ variant →
      addGo name version variant [] node = insertDep node name version variant) := by
  refine ⟨?_, ?_, ?_, ?_, ?_⟩
  · intro name version variant sp node f hf hv
    cases sp with
    | nil => rw [addGo, hf]; dsimp only; rw [if_pos hv]
    | cons part rest => rw [addGo, hf]; dsimp only; rw [if_pos hv]
  · intro name version variant part rest node f child hf hv hchild
    have heq : addGo name version variant (part :: rest) node =
        setChild node part (addGo name version variant rest child) := by
      rw [addGo, hf]; dsimp only; rw [if_neg hv, hchild]
    refine ⟨heq, ?_⟩
    have hdeps : (setChild node part (addGo name version variant rest child)).dependencies =
        setKey node.dependencies part (addGo name version variant rest child) := rfl
    rw [heq, hdeps, getKey_setKey]
    by_cases hpn : part = name
    · rw [if_pos hpn, Option.map_some', (addGo_own_fields _ _ _ _ _).2.2]
      have hcf : child = f := by rw [hpn, hf] at hchild; cases hchild; rfl
      rw [hcf]
    · rw [if_neg hpn, hf, Option.map_some']
  · intro name version variant sp node hf
    cases sp with
    | nil => rw [addGo, hf]
    | cons part rest => rw [addGo, hf]
  · intro name version variant part rest node f hf hv hpart
    rw [addGo, hf]; dsimp only; rw [if_neg hv, hpart]
  · intro name version variant node f hf hv
    rw [addGo, hf]; dsimp only; rw [if_neg hv]

def w7a : PNode := .mk "x" "1.0.0" "x|1.0.0|s1" []

def w7c : PNode := .mk "a" "1.0.0" "a|1.0.0|sa" []

def w7root : PNode := .mk "" "1.0.0" "" [("x", w7a), ("a", w7c)]

/-- C7 witness: the four regular behaviours and the overwrite exception of
the placement step, each at a concrete placement tree. -/
theorem addGo_placement_policy_witness :
    addGo "x" "1.0.0" "x|1.0.0|s1" ["a", "x"] w7root = w7root ∧
    addGo "x" "2.0.0" "x|2.0.0|s2" ["a", "x"] w7root =
      setChild w7root "a" (addGo "x" "2.0.0" "x|2.0.0|s2" ["x"] w7c) ∧
    addGo "b" "1.0.0" "b|1.0.0|sb" ["a", "b"] w7root =
      insertDep w7root "b" "1.0.0" "b|1.0.0|sb" ∧
    addGo "x" "3.0.0" "x|3.0.0|s3" ["q", "x"] w7root =
      insertDep w7root "x" "3.0.0" "x|3.0.0|s3" ∧
    addGo "x" "3.0.0" "x|3.0.0|s3" [] w7root = insertDep w7root "x" "3.0.0" "x|3.0.0|s3" :=
  ⟨addGo_placement_policy.1 "x" "1.0.0" "x|1.0.0|s1" ["a", "x"] w7root w7a rfl rfl,
   (addGo_placement_policy.2.1 "x" "2.0.0" "x|2.0.0|s2" "a" ["x"] w7root w7a w7c rfl
     (by decide) rfl).1,
   addGo_placement_policy.2.2.1 "b" "1.0.0" "b|1.0.0|sb" ["a", "b"] w7root rfl,
   addGo_placement_policy.2.2.2.1 "x" "3.0.0" "x|3.0.0|s3" "q" ["x"] w7root w7a rfl
     (by decide) rfl,
   addGo_placement_policy.2.2.2.2 "x" "3.0.0" "x|3.0.0|s3" w7root w7a rfl (by decide)⟩

end Relock

namespace Relock

/-! ## C6 groundwork: split/join and resolution-loop lemmas -/

theorem splitCharL_ne_nil (d : Char) (l : List Char) : splitCharL d l ≠ [] := by
  induction l with
  | nil => simp [splitCharL]
  | cons c rest ih =>
    rw [splitCharL]
    split
    · simp
    · split
      · simp
      · simp

theorem splitBar_ne_nil (s : String) : splitBar s ≠ [] := by
  rw [splitBar]
  intro h
  exact splitCharL_ne_nil '|' s.data (List.map_eq_nil.mp h)

/-- Character-level `join('|')`. -/
def joinCharL : List (List Char) → List Char
  | [] => []
  | [p] => p
  | p :: rest => p ++ '|' :: joinCharL rest

theorem mk_append (a b : List Char) : String.mk a ++ String.mk b = String.mk (a ++ b) := rfl

theorem joinBar_map_mk : ∀ parts : List (List Char),
    joinBar (parts.map String.mk) = String.mk (joinCharL parts)
  | [] => rfl
  | [_] => rfl
  | p :: q :: qs => by
    have ih := joinBar_map_mk (q :: qs)
    show String.mk p ++ "|" ++ joinBar ((q :: qs).map String.mk) =
      String.mk (joinCharL (p :: q :: qs))
    rw [ih]
    show String.mk ((p ++ ['|']) ++ joinCharL (q :: qs)) =
      String.mk (p ++ '|' :: joinCharL (q :: qs))
    rw [List.append_assoc]
    rfl

theorem joinCharL_splitCharL : ∀ l : List Char, joinCharL (splitCharL '|' l) = l
  | [] => rfl
  | c :: rest => by
    have ih := joinCharL_splitCharL rest
    rw [splitCharL]
    by_cases hc : c = '|'
    · rw [if_pos hc]
      cases hS : splitCharL '|' rest with
      | nil => exact absurd hS (splitCharL_ne_nil '|' rest)
      | cons s ss =>
        rw [hS] at ih
        subst hc
        show [] ++ '|' :: joinCharL (s :: ss) = '|' :: rest
        rw [List.nil_append, ih]
    · rw [if_neg hc]
      cases hS : splitCharL '|' rest with
      | nil => exact absurd hS (splitCharL_ne_nil '|' rest)
      | cons f fs =>
        rw [hS] at ih
        cases fs with
        | nil =>
          show c :: f = c :: rest
          rw [show joinCharL [f] = f from rfl] at ih
          rw [ih]
        | cons g gs =>
          show (c :: f) ++ '|' :: joinCharL (g :: gs) = c :: rest
          rw [show joinCharL (f :: g :: gs) = f ++ '|' :: joinCharL (g :: gs) from rfl] at ih
          rw [List.cons_append, ih]

theorem joinBar_splitBar (s : String) : joinBar (splitBar s) = s := by
  rw [splitBar, joinBar_map_mk, joinCharL_splitCharL]

theorem joinBar_ne_empty_last {name : String} (h : name ≠ "") :
    ∀ sp : List String, joinBar (sp ++ [name]) ≠ ""
  | [] => by simpa [joinBar] using h
  | p :: rest => by
    intro hcon
    cases hrr : rest ++ [name] with
    | nil => simp at hrr
    | cons a as =>
      rw [List.cons_append, hrr] at hcon
      have hcon2 : p ++ "|" ++ joinBar (a :: as) = "" := hcon
      have hlen := congrArg String.length hcon2
      rw [String.length_append, String.length_append] at hlen
      have hbar : ("|" : String).length = 1 := rfl
      have hempty : ("" : String).length = 0 := rfl
      omega

theorem glpLoop_good {lockPaths : List String} {name : String} :
    ∀ (fuel : Nat) (sp : List String) (r : String),
      glpLoop lockPaths name fuel sp = some r → r = "" ∨ r ∈ lockPaths := by
  intro fuel
  induction fuel with
  | zero => intro sp r h; cases h
  | succ k ih =>
    intro sp r h
    rw [glpLoop] at h
    split at h
    · split at h
      · exact ih sp r h
      · cases h
        rename_i hmem _
        exact Or.inr (by simpa using hmem)
    · split at h
      · cases h
        exact Or.inl rfl
      · exact ih sp.dropLast r h

theorem glpLoop_adequate {lockPaths : List String} {name : String} (hname : name ≠ "") :
    ∀ (n : Nat) (sp : List String), sp.length ≤ n →
      (glpLoop lockPaths name (sp.length + 1) sp).isSome = true := by
  intro n
  induction n with
  | zero =>
    intro sp hsp
    have hnil : sp = [] := List.length_eq_zero.mp (Nat.le_zero.mp hsp)
    subst hnil
    rw [glpLoop]
    split
    · split
      · rename_i hc
        exact absurd hc (joinBar_ne_empty_last hname [])
      · rfl
    · split
      · rfl
      · rename_i hnil
        exact absurd rfl hnil
  | succ n ih =>
    intro sp hsp
    rw [glpLoop]
    split
    · split
      · rename_i hc
        exact absurd hc (joinBar_ne_empty_last hname sp)
      · rfl
    · split
      · rfl
      · rename_i hnil
        have hlen : sp.length = sp.dropLast.length + 1 := by
          cases sp with
          | nil => exact absurd rfl hnil
          | cons a as => simp [List.dropLast]
        rw [hlen]
        exact ih sp.dropLast (by omega)

/-- The loop exits on its very first probe when the full joined path is a
known lock-path (the non-empty case). -/
theorem glpLoop_first_probe {lockPaths : List String} {name : String} {sp : List String}
    (fuel : Nat) (hmem : lockPaths.contains (joinBar (sp ++ [name])) = true)
    (hne : joinBar (sp ++ [name]) ≠ "") :
    glpLoop lockPaths name (fuel + 1) sp = some (joinBar (sp ++ [name])) := by
  rw [glpLoop, if_pos hmem, if_neg hne]

end Relock

namespace Relock

/-! ## C6: well-formedness (non-empty requires names) and termination -/

mutual

/-- Every `requires` name in the lock tree is non-empty. -/
def reqKeysOk : LockNode → Bool
  | .mk _ req deps => req.all (fun kv => !(kv.1 == "")) && reqKeysOkL deps

def reqKeysOkL : List (String × LockNode) → Bool
  | [] => true
  | (_, c) :: rest => reqKeysOk c && reqKeysOkL rest

end

theorem bool_and_split {a b : Bool} (h : (a && b) = true) : a = true ∧ b = true := by
  simp only [Bool.and_eq_true] at h
  exact h

theorem reqKeysOkL_lookup : ∀ {deps : List (String × LockNode)} {k : String} {c : LockNode},
    reqKeysOkL deps = true → getKey deps k = some c → reqKeysOk c = true := by
  intro deps
  induction deps with
  | nil => intro k c _ h; cases h
  | cons kv rest ih =>
    intro k c hok h
    obtain ⟨k0, c0⟩ := kv
    rw [reqKeysOkL] at hok
    rw [getKey] at h
    by_cases hk : k0 = k
    · rw [if_pos hk] at h
      cases h
      exact (bool_and_split hok).1
    · rw [if_neg hk] at h
      exact ih (bool_and_split hok).2 h

theorem reqKeysOk_deps {n : LockNode} (h : reqKeysOk n = true) :
    reqKeysOkL n.dependencies = true := by
  cases n with
  | mk v req deps => exact (bool_and_split (by rwa [reqKeysOk] at h)).2

theorem reqKeysOk_getNode : ∀ (path : List String) (root : LockNode),
    reqKeysOk root = true → reqKeysOk (getNode root path) = true := by
  intro path
  induction path with
  | nil => intro root h; exact h
  | cons part rest ih =>
    intro root h
    have hstep : getNode root (part :: rest) =
        getNode (match getKey root.dependencies part with
                 | some child => child
                 | none => root) rest := rfl
    rw [hstep]
    cases hk : getKey root.dependencies part with
    | some child => exact ih child (reqKeysOkL_lookup (reqKeysOk_deps h) hk)
    | none => exact ih root h

theorem reqKeysOk_requires {n : LockNode} (h : reqKeysOk n = true) :
    ∀ p ∈ n.requires, p.1 ≠ "" := by
  intro p hp
  cases n with
  | mk v req deps =>
    rw [reqKeysOk] at h
    have hall := (bool_and_split h).1
    have := List.all_eq_true.mp hall p hp
    simpa using this

theorem nodup_subset_dedup_length {stack l : List String}
    (hnd : stack.Nodup) (hsub : ∀ x ∈ stack, x ∈ l) :
    stack.length ≤ l.dedup.length := by
  have h1 : stack.toFinset.card = stack.length := List.toFinset_card_of_nodup hnd
  have h2 : stack.toFinset ⊆ l.toFinset := by
    intro x hx
    rw [List.mem_toFinset] at hx ⊢
    exact hsub x hx
  have h3 := Finset.card_le_card h2
  rw [h1, List.card_toFinset] at h3
  exact h3

theorem joinBar_two_ne_empty (p q : String) (rest : List String) :
    joinBar (p :: q :: rest) ≠ "" := by
  intro hcon
  have hcon2 : p ++ "|" ++ joinBar (q :: rest) = "" := hcon
  have hlen := congrArg String.length hcon2
  rw [String.length_append, String.length_append] at hlen
  have hbar : ("|" : String).length = 1 := rfl
  have hempty : ("" : String).length = 0 := rfl
  omega

/-- The resolution `getLockPath` terminates with a good result on every
query `one` actually makes: the root query, or a path obtained by
splitting a previous resolution result. -/
theorem getLockPath_good {lockPaths path : List String}
    (hpath : path = [] ∨ ∃ rp, (rp = "" ∨ rp ∈ lockPaths) ∧ path = splitBar rp) :
    ∃ lop, getLockPath lockPaths path.dropLast (path.getLast?.getD "") = some lop ∧
      (lop = "" ∨ lop ∈ lockPaths) := by
  rcases hpath with hnil | ⟨rp, hrp, hsp⟩
  · subst hnil
    exact ⟨"", rfl, Or.inl rfl⟩
  · rcases hrp with hrp0 | hrpmem
    · subst hrp0
      subst hsp
      exact ⟨"", rfl, Or.inl rfl⟩
    · subst hsp
      by_cases hsc : (splitBar rp).dropLast = [] ∧ ((splitBar rp).getLast?.getD "") = ""
      · refine ⟨"", ?_, Or.inl rfl⟩
        rw [getLockPath, if_pos hsc]
      · rw [getLockPath, if_neg hsc]
        by_cases hname : ((splitBar rp).getLast?.getD "") = ""
        · -- first probe finds rp itself
          have hne : (splitBar rp) ≠ [] := splitBar_ne_nil rp
          have hjoin : (splitBar rp).dropLast ++ [(splitBar rp).getLast?.getD ""] = splitBar rp := by
            rw [List.getLast?_eq_getLast _ hne, Option.getD_some]
            exact List.dropLast_append_getLast hne
          have hdl : (splitBar rp).dropLast ≠ [] := fun hdl => hsc ⟨hdl, hname⟩
          have hrpne : rp ≠ "" := by
            intro h0
            subst h0
            exact hdl rfl
          have hcheck : joinBar ((splitBar rp).dropLast ++ [(splitBar rp).getLast?.getD ""]) = rp := by
            rw [hjoin, joinBar_splitBar]
          refine ⟨rp, ?_, Or.inr hrpmem⟩
          have hcont : lockPaths.contains
              (joinBar ((splitBar rp).dropLast ++ [(splitBar rp).getLast?.getD ""])) = true := by
            rw [hcheck]
            simpa using hrpmem
          rw [glpLoop_first_probe _ hcont (by rw [hcheck]; exact hrpne), hcheck]
        · obtain ⟨lop, hlop⟩ := Option.isSome_iff_exists.mp
            (glpLoop_adequate hname (splitBar rp).dropLast.length (splitBar rp).dropLast (le_refl _))
          refine ⟨lop, hlop, ?_⟩
          exact glpLoop_good _ _ _ hlop

theorem findLock_isSome {root : LockNode} {lockPaths : List String} {name : String}
    {path : List String} (h : (getLockPath lockPaths path name).isSome = true) :
    (findLock root lockPaths name path).isSome = true := by
  rw [findLock]
  split
  · rfl
  · simpa using h

theorem findLock_reqKeysOk {root : LockNode} {lockPaths : List String} {name : String}
    {path : List String} {ln : LockNode} (hroot : reqKeysOk root = true)
    (h : findLock root lockPaths name path = some ln) : reqKeysOk ln = true := by
  rw [findLock] at h
  split at h
  · cases h
    exact hroot
  · cases hg : getLockPath lockPaths path name with
    | none => rw [hg] at h; cases h
    | some lp =>
      rw [hg, Option.map_some'] at h
      cases h
      exact reqKeysOk_getNode _ _ hroot

end Relock

namespace Relock

theorem oneKids_terminates {go : List String → BState → Option (List DepNode × BState)}
    {root : LockNode} {lockPaths path : List String}
    (hgo : ∀ rp st, (rp = "" ∨ rp ∈ lockPaths) →
      (go (splitBar rp) st).isSome = true) :
    ∀ (reqs : List (String × String)), (∀ p ∈ reqs, p.1 ≠ "") →
      ∀ st, (oneKids go root lockPaths path reqs st).isSome = true := by
  intro reqs
  induction reqs with
  | nil =>
    intro _ st
    rw [oneKids]
    rfl
  | cons kv rest ih =>
    intro hne st
    obtain ⟨nm, semVer⟩ := kv
    have hnm : nm ≠ "" := hne (nm, semVer) (List.mem_cons_self _ _)
    rw [oneKids]
    have hglp : (getLockPath lockPaths path nm).isSome = true := by
      rw [getLockPath]
      split
      · rfl
      · exact glpLoop_adequate hnm path.length path (le_refl _)
    obtain ⟨realPath, hrp⟩ := Option.isSome_iff_exists.mp hglp
    rw [hrp]
    obtain ⟨mtch, hm⟩ := Option.isSome_iff_exists.mp
      (@findLock_isSome root _ _ _ (by rw [hrp]; rfl))
    rw [hm]
    dsimp only
    have hrpgood : realPath = "" ∨ realPath ∈ lockPaths := by
      rw [getLockPath] at hrp
      split at hrp
      · cases hrp
        exact Or.inl rfl
      · exact glpLoop_good _ _ _ hrp
    obtain ⟨r2, hr2⟩ := Option.isSome_iff_exists.mp (hgo realPath
      { st with versions := (setKey st.versions (nm ++ "@" ++ mtch.version)
          (VRec.mk mtch.version mtch.requires)) } hrpgood)
    rw [hr2]
    dsimp only
    obtain ⟨r4, hr4⟩ := Option.isSome_iff_exists.mp
      (ih (fun p hp => hne p (List.mem_cons_of_mem _ hp))
        { r2.2 with dependencyTrees := (setKey r2.2.dependencyTrees
            (getTreeSignature (sortId r2.1)) (sortId r2.1)) })
    rw [hr4]
    rfl

theorem one_terminates :
    ∀ (fuel : Nat) (root : LockNode) (stack path : List String) (st : BState),
      reqKeysOk root = true →
      stack.Nodup →
      (∀ x ∈ stack, x ∈ buildPaths root) →
      (buildPaths root).dedup.length < fuel + stack.length →
      (path = [] ∨ ∃ rp, (rp = "" ∨ rp ∈ buildPaths root) ∧ path = splitBar rp) →
      (one root (buildPaths root) fuel stack path st).isSome = true := by
  intro fuel
  induction fuel with
  | zero =>
    intro root stack path st hroot hnd hsub hbound hpath
    have := nodup_subset_dedup_length hnd hsub
    omega
  | succ k ih =>
    intro root stack path st hroot hnd hsub hbound hpath
    obtain ⟨lop, hlop, hlopgood⟩ := @getLockPath_good (buildPaths root) _ hpath
    have hlopmem : lop ∈ buildPaths root := by
      rcases hlopgood with h | h
      · rw [h, buildPaths]
        exact List.mem_cons_self _ _
      · exact h
    rw [one]
    dsimp only
    rw [hlop]
    dsimp only
    split
    · rfl
    · rename_i hc
      obtain ⟨lockNode, hln⟩ := Option.isSome_iff_exists.mp
        (@findLock_isSome root _ _ _ (by rw [hlop]; rfl))
      rw [hln]
      dsimp only
      cases hpr : getKey st.processed lop with
      | some deps => rfl
      | none =>
        have hreq : ∀ p ∈ lockNode.requires, p.1 ≠ "" :=
          reqKeysOk_requires (findLock_reqKeysOk hroot hln)
        have hnotmem : lop ∉ stack := by
          intro hmem
          exact hc (by simpa using hmem)
        have hgo : ∀ rp s, (rp = "" ∨ rp ∈ buildPaths root) →
            (one root (buildPaths root) k (stack ++ [lop]) (splitBar rp) s).isSome = true := by
          intro rp s hrp
          apply ih root (stack ++ [lop]) (splitBar rp) s hroot
          · rw [List.nodup_append]
            exact ⟨hnd, List.nodup_singleton lop, by
              intro x hx hx2
              rw [List.mem_singleton] at hx2
              subst hx2
              exact hnotmem hx⟩
          · intro x hx
            rcases List.mem_append.mp hx with hx | hx
            · exact hsub x hx
            · rw [List.mem_singleton] at hx
              subst hx
              exact hlopmem
          · rw [List.length_append, List.length_singleton]
            omega
          · exact Or.inr ⟨rp, hrp, rfl⟩
        obtain ⟨r2, hr2⟩ := Option.isSome_iff_exists.mp
          (oneKids_terminates hgo lockNode.requires hreq st)
        rw [hr2]
        rfl

/-- The builder terminates on every lock file whose `requires` names are
all non-empty. -/
theorem generateDependencyTree_terminates (root : LockNode) (st : BState)
    (hroot : reqKeysOk root = true) :
    (generateDependencyTree root st).isSome = true := by
  rw [generateDependencyTree]
  dsimp only
  have hone := one_terminates ((buildPaths root).length + 1) root [] [] { st with processed := [] }
    hroot List.nodup_nil (by intro x hx; cases hx)
    (by
      have := List.Sublist.length_le (List.dedup_sublist (buildPaths root))
      simpa using Nat.lt_succ_of_le this)
    (Or.inl rfl)
  obtain ⟨r, hr⟩ := Option.isSome_iff_exists.mp hone
  rw [hr]
  rfl

end Relock

namespace Relock

/-- The JS resolution loop genuinely diverges once it reaches an empty
`searchPath` with an empty `name`: the probe `''` is always a known
lock-path (the root), `found = ''` stays falsy, and the loop state never
changes.  No amount of fuel produces a result. -/
theorem glpLoop_empty_name_diverges {lockPaths : List String}
    (h : lockPaths.contains "" = true) :
    ∀ fuel, glpLoop lockPaths "" fuel [] = none := by
  intro fuel
  induction fuel with
  | zero => rfl
  | succ k ih =>
    rw [glpLoop]
    rw [show joinBar (([] : List String) ++ [""]) = "" from rfl, if_pos h, if_pos rfl]
    exact ih

def badLock : LockNode := .mk "1.0.0" [("a", "^1.0.0")]
  [("a", .mk "1.0.0" [("", "1.0.0")] [])]

/-- C6 counterexample: `badLock` requires `a`, and `a`'s lock entry
requires the *empty* dependency name, which resolves nowhere.  Resolving
it, the JS `getLockPath` do/while pops `searchPath` to `[]`, probes the
root lock-path `''`, sets `found = ''` — which is falsy — and loops
forever with unchanged state (`glpLoop_empty_name_diverges`): tree
construction does not terminate on this input lock file, refuting the
claim's "for every input lock file".  In the model the diverging loop
yields `none`. -/
theorem generateDependencyTree_empty_name_diverges :
    reqKeysOk badLock = false ∧
    generateDependencyTree badLock initState = none :=
  ⟨rfl, rfl⟩

/-- C6 (amended: restricted to lock files in which every `requires` name
is non-empty — an empty required name sends the resolution loop into the
genuine infinite loop exhibited by the counterexample): for every such
lock file, including ones with self- or mutually-referential module pairs,
`generateDependencyTree` terminates; and whenever the lock-path of the
node being expanded is already on the expansion stack, that edge resolves
to an empty dependency list with the state untouched, processing
continues, and the run is never aborted by a cycle. -/
theorem generateDependencyTree_total_and_cycle_edge_empty :
    (∀ (root : LockNode) (st : BState), reqKeysOk root = true →
      (generateDependencyTree root st).isSome = true) ∧
    (∀ (root : LockNode) (lockPaths : List String) (fuel : Nat)
       (stack path : List String) (st : BState) (lockOnePath : String),
      getLockPath lockPaths path.dropLast (path.getLast?.getD "") = some lockOnePath →
      lockOnePath ∈ stack →
      one root lockPaths (fuel + 1) stack path st = some ([], st)) := by
  refine ⟨fun root st h => generateDependencyTree_terminates root st h, ?_⟩
  intro root lockPaths fuel stack path st lockOnePath hglp hmem
  rw [one]
  rw [hglp]
  dsimp only
  rw [if_pos (show stack.contains lockOnePath = true by simpa using hmem)]

def cycLock : LockNode := .mk "1.0.0" [("a", "^1.0.0")]
  [("a", .mk "1.1.0" [("b", "^2.0.0")] []), ("b", .mk "2.0.0" [("a", "^1.0.0")] [])]

/-- C6 witness: a mutually-referential pair `a ↔ b`.  The build completes,
the re-entered edge returns the empty dependency list, and in the final
tree the cyclic branch `a → b → a` bottoms out with an empty dependency
list. -/
theorem generateDependencyTree_total_and_cycle_edge_empty_witness :
    reqKeysOk cycLock = true ∧
    (generateDependencyTree cycLock initState).isSome = true ∧
    one cycLock (buildPaths cycLock) 1 ["a"] ["a"] initState = some ([], initState) ∧
    ((generateDependencyTree cycLock initState).map fun r =>
      r.1.dependencies.map fun d =>
        d.dependencies.map fun e => e.dependencies.map DepNode.dependencies) =
      some [[[[]]]] :=
  ⟨rfl,
   generateDependencyTree_total_and_cycle_edge_empty.1 cycLock initState rfl,
   generateDependencyTree_total_and_cycle_edge_empty.2 cycLock (buildPaths cycLock) 0
     ["a"] ["a"] initState "a" rfl (List.mem_singleton.mpr rfl),
   rfl⟩

end Relock

namespace Relock

/-! ## C10 groundwork: versions coverage through the pipeline -/

/-- The string contains no `'|'` (the lock-path/variant separator). -/
def strBarFree (s : String) : Bool := !(s.data.contains '|')

mutual

/-- Every version string and every `requires` name in the lock file is
free of the `'|'` separator. -/
def lockBarFree : LockNode → Bool
  | .mk v req deps =>
    strBarFree v && req.all (fun kv => strBarFree kv.1) && lockBarFreeL deps

def lockBarFreeL : List (String × LockNode) → Bool
  | [] => true
  | (_, c) :: rest => lockBarFree c && lockBarFreeL rest

end

mutual

/-- Every node of the dependency tree has its `name@version` tag recorded
in the versions store `vs`, and bar-free name and version. -/
def okNode (vs : List (String × VRec)) : DepNode → Bool
  | .mk n v _ _ _ _ deps =>
    containsKey vs (n ++ "@" ++ v) && strBarFree n && strBarFree v && okList vs deps

def okList (vs : List (String × VRec)) : List DepNode → Bool
  | [] => true
  | d :: rest => okNode vs d && okList vs rest

end

def VGrows (vs vs' : List (String × VRec)) : Prop :=
  ∀ k, containsKey vs k = true → containsKey vs' k = true

mutual

theorem okNode_mono {vs vs' : List (String × VRec)} (hg : VGrows vs vs') :
    ∀ d, okNode vs d = true → okNode vs' d = true
  | .mk n v sv t r sg deps, h => by
    rw [okNode] at h ⊢
    simp only [Bool.and_eq_true] at h ⊢
    exact ⟨⟨⟨hg _ h.1.1.1, h.1.1.2⟩, h.1.2⟩, okList_mono hg deps h.2⟩

theorem okList_mono {vs vs' : List (String × VRec)} (hg : VGrows vs vs') :
    ∀ l, okList vs l = true → okList vs' l = true
  | [], _ => rfl
  | d :: rest, h => by
    rw [okList] at h ⊢
    simp only [Bool.and_eq_true] at h ⊢
    exact ⟨okNode_mono hg d h.1, okList_mono hg rest h.2⟩

end

theorem okList_head {vs : List (String × VRec)} {d : DepNode} {rest : List DepNode}
    (h : okList vs (d :: rest) = true) : okNode vs d = true ∧ okList vs rest = true := by
  rw [okList] at h
  exact bool_and_split h

theorem okNode_parts {vs : List (String × VRec)} {d : DepNode} (h : okNode vs d = true) :
    containsKey vs (d.name ++ "@" ++ d.version) = true ∧ strBarFree d.name = true ∧
      strBarFree d.version = true ∧ okList vs d.dependencies = true := by
  cases d with
  | mk n v sv t r sg deps =>
    rw [okNode] at h
    simp only [Bool.and_eq_true] at h
    exact ⟨h.1.1.1, h.1.1.2, h.1.2, h.2⟩

theorem okList_find {vs : List (String × VRec)} {p : DepNode → Bool} :
    ∀ {deps : List DepNode} {c : DepNode},
      okList vs deps = true → deps.find? p = some c → okNode vs c = true := by
  intro deps
  induction deps with
  | nil => intro c _ h; cases h
  | cons d rest ih =>
    intro c hok h
    rw [List.find?] at h
    cases hp : p d with
    | true => rw [hp] at h; cases h; exact (okList_head hok).1
    | false => rw [hp] at h; exact ih (okList_head hok).2 h

/-! Bar-freeness flows from the lock file into every built tree node. -/

theorem lockBarFreeL_lookup : ∀ {deps : List (String × LockNode)} {k : String} {c : LockNode},
    lockBarFreeL deps = true → getKey deps k = some c → lockBarFree c = true := by
  intro deps
  induction deps with
  | nil => intro k c _ h; cases h
  | cons kv rest ih =>
    intro k c hok h
    obtain ⟨k0, c0⟩ := kv
    rw [lockBarFreeL] at hok
    rw [getKey] at h
    by_cases hk : k0 = k
    · rw [if_pos hk] at h
      cases h
      exact (bool_and_split hok).1
    · rw [if_neg hk] at h
      exact ih (bool_and_split hok).2 h

theorem lockBarFree_deps {n : LockNode} (h : lockBarFree n = true) :
    lockBarFreeL n.dependencies = true := by
  cases n with
  | mk v req deps => exact (bool_and_split (by rwa [lockBarFree] at h)).2

theorem lockBarFree_version {n : LockNode} (h : lockBarFree n = true) :
    strBarFree n.version = true := by
  cases n with
  | mk v req deps =>
    rw [lockBarFree] at h
    exact (bool_and_split (bool_and_split h).1).1

theorem lockBarFree_requires {n : LockNode} (h : lockBarFree n = true) :
    ∀ p ∈ n.requires, strBarFree p.1 = true := by
  intro p hp
  cases n with
  | mk v req deps =>
    rw [lockBarFree] at h
    exact List.all_eq_true.mp (bool_and_split (bool_and_split h).1).2 p hp

theorem lockBarFree_getNode : ∀ (path : List String) (root : LockNode),
    lockBarFree root = true → lockBarFree (getNode root path) = true := by
  intro path
  induction path with
  | nil => intro root h; exact h
  | cons part rest ih =>
    intro root h
    have hstep : getNode root (part :: rest) =
        getNode (match getKey root.dependencies part with
                 | some child => child
                 | none => root) rest := rfl
    rw [hstep]
    cases hk : getKey root.dependencies part with
    | some child => exact ih child (lockBarFreeL_lookup (lockBarFree_deps h) hk)
    | none => exact ih root h

theorem findLock_lockBarFree {root : LockNode} {lockPaths : List String} {name : String}
    {path : List String} {ln : LockNode} (hroot : lockBarFree root = true)
    (h : findLock root lockPaths name path = some ln) : lockBarFree ln = true := by
  rw [findLock] at h
  split at h
  · cases h
    exact hroot
  · cases hg : getLockPath lockPaths path name with
    | none => rw [hg] at h; cases h
    | some lp =>
      rw [hg, Option.map_some'] at h
      cases h
      exact lockBarFree_getNode _ _ hroot

end Relock

namespace Relock

/-- Every memoized dependency list in `processed` is covered by the
current versions store. -/
def ProcOk (st : BState) : Prop :=
  ∀ k l, getKey st.processed k = some l → okList st.versions l = true

theorem containsKey_setKey_self {α : Type} (m : List (String × α)) (k : String) (v : α) :
    containsKey (setKey m k v) k = true := by
  rw [containsKey_setKey]
  simp

theorem oneKids_ok {go : List String → BState → Option (List DepNode × BState)}
    {root : LockNode} {lockPaths path : List String}
    (hroot : lockBarFree root = true)
    (hgo : ∀ p s res s', ProcOk s → go p s = some (res, s') →
      okList s'.versions res = true ∧ ProcOk s' ∧ StGrows s s') :
    ∀ reqs st res st', (∀ p ∈ reqs, strBarFree p.1 = true) → ProcOk st →
      oneKids go root lockPaths path reqs st = some (res, st') →
      okList st'.versions res = true ∧ ProcOk st' ∧ StGrows st st' := by
  intro reqs
  induction reqs with
  | nil =>
    intro st res st' _ hproc h
    rw [oneKids] at h
    cases h
    exact ⟨rfl, hproc, stGrows_refl st⟩
  | cons kv rest ih =>
    intro st res st' hbar hproc h
    obtain ⟨nm, semVer⟩ := kv
    rw [oneKids] at h
    split at h
    · cases h
    · split at h
      · cases h
      · rename_i mtch hfl
        dsimp only at h
        split at h
        · cases h
        · rename_i r2 hgo1
          split at h
          · cases h
          · rename_i r4 hrest
            cases h
            have hg1 : StGrows st { st with versions := (setKey st.versions
                (nm ++ "@" ++ mtch.version) (VRec.mk mtch.version mtch.requires)) } :=
              ⟨fun k h => h, fun k h => containsKey_setKey_mono _ _ h⟩
            have hproc1 : ProcOk { st with versions := (setKey st.versions
                (nm ++ "@" ++ mtch.version) (VRec.mk mtch.version mtch.requires)) } :=
              fun k l hk => okList_mono (fun j hj => containsKey_setKey_mono _ _ hj) l
                (hproc k l hk)
            obtain ⟨hok2, hproc2, hg2⟩ := hgo _ _ _ _ hproc1 hgo1
            have hproc3 : ProcOk { r2.2 with dependencyTrees := (setKey r2.2.dependencyTrees
                (getTreeSignature (sortId r2.1)) (sortId r2.1)) } := hproc2
            obtain ⟨hok4, hproc4, hg4⟩ := ih _ _ _
              (fun p hp => hbar p (List.mem_cons_of_mem _ hp)) hproc3 hrest
            have hg3 : StGrows r2.2 { r2.2 with dependencyTrees := (setKey r2.2.dependencyTrees
                (getTreeSignature (sortId r2.1)) (sortId r2.1)) } :=
              ⟨fun k h => containsKey_setKey_mono _ _ h, fun k h => h⟩
            have hgall : StGrows st r4.2 :=
              stGrows_trans hg1 (stGrows_trans hg2 (stGrows_trans hg3 hg4))
            refine ⟨?_, hproc4, hgall⟩
            rw [okList]
            simp only [Bool.and_eq_true]
            constructor
            · rw [okNode]
              simp only [Bool.and_eq_true]
              refine ⟨⟨⟨?_, ?_⟩, ?_⟩, ?_⟩
              · exact (stGrows_trans hg2 (stGrows_trans hg3 hg4)).2 _
                  (containsKey_setKey_self _ _ _)
              · exact hbar (nm, semVer) (List.mem_cons_self _ _)
              · exact lockBarFree_version (findLock_lockBarFree hroot hfl)
              · exact okList_mono (stGrows_trans hg3 hg4).2 _ hok2
            · exact hok4

theorem one_ok :
    ∀ (fuel : Nat) (root : LockNode) (lockPaths stack path : List String)
      (st : BState) (res : List DepNode) (st' : BState),
      lockBarFree root = true → ProcOk st →
      one root lockPaths fuel stack path st = some (res, st') →
      okList st'.versions res = true ∧ ProcOk st' ∧ StGrows st st' := by
  intro fuel
  induction fuel with
  | zero =>
    intro root lockPaths stack path st res st' _ _ h
    rw [show one root lockPaths 0 stack path st = none from rfl] at h
    cases h
  | succ k ih =>
    intro root lockPaths stack path st res st' hroot hproc h
    rw [one] at h
    split at h
    · cases h
    · split at h
      · cases h
        exact ⟨rfl, hproc, stGrows_refl st⟩
      · split at h
        · cases h
        · rename_i lockNode hfl
          dsimp only at h
          split at h
          · rename_i deps hpr
            cases h
            exact ⟨hproc _ _ hpr, hproc, stGrows_refl st⟩
          · split at h
            · cases h
            · rename_i r2 hkids
              cases h
              obtain ⟨hok2, hproc2, hg2⟩ := oneKids_ok hroot
                (fun p s rs s' hp hh => ih root lockPaths _ p s rs s' hroot hp hh)
                lockNode.requires st r2.1 r2.2
                (lockBarFree_requires (findLock_lockBarFree hroot hfl)) hproc hkids
              refine ⟨hok2, ?_, hg2⟩
              intro key l hk
              have : getKey (setKey r2.2.processed _ r2.1) key = some l := hk
              rw [getKey_setKey] at this
              split at this
              · cases this
                exact hok2
              · exact hproc2 key l this

theorem generateDependencyTree_ok {root : LockNode} {st : BState} {tree : DepNode}
    {st' : BState} (hroot : lockBarFree root = true)
    (h : generateDependencyTree root st = some (tree, st')) :
    okList st'.versions tree.dependencies = true := by
  rw [generateDependencyTree] at h
  dsimp only at h
  split at h
  · cases h
  · rename_i r hone
    cases h
    have hproc0 : ProcOk { st with processed := [] } := fun k l hk => by cases hk
    exact (one_ok _ root _ [] [] _ r.1 r.2 hroot hproc0 hone).1

end Relock

namespace Relock

theorem mixChild_ok {vs : List (String × VRec)} {go : DepNode → DepNode → Option DepNode}
    {cfg : Config} {cur prev : DepNode} {key cv : String} {d : DepNode}
    (hcur : okList vs cur.dependencies = true) (hprev : okList vs prev.dependencies = true)
    (hgo : ∀ cc pp md, okNode vs cc = true → okNode vs pp = true →
      go cc pp = some md → okNode vs md = true)
    (h : mixChild go cfg cur prev key cv = some d) : okNode vs d = true := by
  rw [mixChild] at h
  split at h
  · rw [findDep] at h
    exact okList_find hcur h
  · split at h
    · rw [findDep] at h
      exact okList_find hcur h
    · split at h
      · rw [findDep] at h
        exact okList_find hcur h
      · split at h
        · split at h
          · rename_i cc pp hcc hpp
            rw [findDep] at hcc
            rw [findDep] at hpp
            exact hgo cc pp d (okList_find hcur hcc) (okList_find hprev hpp) h
          · cases h
        · rw [findDep] at h
          exact okList_find hprev h

theorem mixDeps_ok {vs : List (String × VRec)} {go : DepNode → DepNode → Option DepNode}
    {cfg : Config} {cur prev : DepNode}
    (hcur : okList vs cur.dependencies = true) (hprev : okList vs prev.dependencies = true)
    (hgo : ∀ cc pp md, okNode vs cc = true → okNode vs pp = true →
      go cc pp = some md → okNode vs md = true) :
    ∀ (reqs : List (String × String)) (ds : List DepNode),
      mixDeps go cfg cur prev reqs = some ds → okList vs ds = true := by
  intro reqs
  induction reqs with
  | nil =>
    intro ds h
    rw [mixDeps] at h
    cases h
    rfl
  | cons kv rest ih =>
    intro ds h
    obtain ⟨key, cv⟩ := kv
    rw [mixDeps] at h
    split at h
    · cases h
    · rename_i d hd
      cases hrest : mixDeps go cfg cur prev rest with
      | none => rw [hrest] at h; cases h
      | some ds' =>
        rw [hrest, Option.map_some'] at h
        cases h
        rw [okList]
        simp only [Bool.and_eq_true]
        exact ⟨mixChild_ok hcur hprev hgo hd, ih ds' hrest⟩

theorem mixOne_ok {vs : List (String × VRec)} (cfg : Config) :
    ∀ (fuel : Nat) (cur prev m : DepNode),
      okList vs cur.dependencies = true → okList vs prev.dependencies = true →
      mixOne cfg fuel cur prev = some m →
      okList vs m.dependencies = true := by
  intro fuel
  induction fuel with
  | zero =>
    intro cur prev m _ _ h
    rw [show mixOne cfg 0 cur prev = none from rfl] at h
    cases h
  | succ k ih =>
    intro cur prev m hcur hprev h
    rw [mixOne_succ] at h
    cases hds : mixDeps (mixOne cfg k) cfg cur prev cur.requires with
    | none => rw [hds] at h; cases h
    | some ds =>
      rw [hds, Option.map_some'] at h
      have hgo : ∀ cc pp md, okNode vs cc = true → okNode vs pp = true →
          mixOne cfg k cc pp = some md → okNode vs md = true := by
        intro cc pp md hc hp hh
        have hdeps := ih cc pp md (okNode_parts hc).2.2.2 (okNode_parts hp).2.2.2 hh
        obtain ⟨hn, hv, _, _, _, _⟩ := mixOne_meta hh
        cases md with
        | mk n v sv t r sg deps2 =>
          rw [okNode]
          simp only [Bool.and_eq_true]
          refine ⟨⟨⟨?_, ?_⟩, ?_⟩, hdeps⟩
          · rw [show n = cc.name from hn, show v = cc.version from hv]
            exact (okNode_parts hc).1
          · rw [show n = cc.name from hn]
            exact (okNode_parts hc).2.1
          · rw [show v = cc.version from hv]
            exact (okNode_parts hc).2.2.1
      cases h
      exact mixDeps_ok hcur hprev hgo _ _ hds

end Relock

namespace Relock

/-- The facts carried by every indexed module: its tag is in the versions
store, its name and version are bar-free, and its variant key is the
`name|version|signature` join. -/
def ModOk (vs : List (String × VRec)) (m : Module) : Prop :=
  containsKey vs (m.name ++ "@" ++ m.version) = true ∧ strBarFree m.name = true ∧
    strBarFree m.version = true ∧
    m.variant = m.name ++ "|" ++ m.version ++ "|" ++ m.signature

theorem bumpVariant_ModOk {vs : List (String × VRec)} {ms : List Module} {v : String}
    {d : Nat} {p : String} (h : ∀ m ∈ ms, ModOk vs m) :
    ∀ m ∈ bumpVariant ms v d p, ModOk vs m := by
  intro m hm
  rw [bumpVariant] at hm
  obtain ⟨m0, hm0, heq⟩ := List.mem_map.mp hm
  split at heq
  · subst heq
    obtain ⟨h1, h2, h3, h4⟩ := h m0 hm0
    exact ⟨h1, h2, h3, h4⟩
  · subst heq
    exact h m0 hm0

mutual

theorem biNode_ok {vs : List (String × VRec)} :
    ∀ (node : DepNode) (path : List String) (ms : List Module),
      okList vs node.dependencies = true → (∀ m ∈ ms, ModOk vs m) →
      ∀ m ∈ biNode node path ms, ModOk vs m
  | .mk n v sv t r sg deps, path, ms, hok, hms => by
    rw [biNode]
    exact biList_ok deps path ms hok hms

theorem biList_ok {vs : List (String × VRec)} :
    ∀ (deps : List DepNode) (path : List String) (ms : List Module),
      okList vs deps = true → (∀ m ∈ ms, ModOk vs m) →
      ∀ m ∈ biList deps path ms, ModOk vs m
  | [], _, ms, _, hms => by
    rw [biList]
    exact hms
  | dep :: rest, path, ms, hok, hms => by
    rw [biList]
    apply biList_ok rest path _ (okList_head hok).2
    apply biNode_ok dep _ _ (okNode_parts (okList_head hok).1).2.2.2
    apply bumpVariant_ModOk
    intro m hm
    split at hm
    · exact hms m hm
    · rcases List.mem_append.mp hm with hm | hm
      · exact hms m hm
      · rw [List.mem_singleton] at hm
        subst hm
        obtain ⟨h1, h2, h3, _⟩ := okNode_parts (okList_head hok).1
        exact ⟨h1, h2, h3, rfl⟩

end

theorem mem_insertCmp {α : Type} {cmp : α → α → Ordering} {x y : α} :
    ∀ {l : List α}, x ∈ insertCmp cmp y l → x = y ∨ x ∈ l := by
  intro l
  induction l with
  | nil => intro h; rw [insertCmp] at h; simpa using h
  | cons z zs ih =>
    intro h
    rw [insertCmp] at h
    split at h
    · rcases List.mem_cons.mp h with h | h
      · exact Or.inl h
      · exact Or.inr h
    · rcases List.mem_cons.mp h with h | h
      · exact Or.inr (by rw [h]; exact List.mem_cons_self _ _)
      · rcases ih h with h | h
        · exact Or.inl h
        · exact Or.inr (List.mem_cons_of_mem _ h)

theorem mem_sortByCmp {α : Type} {cmp : α → α → Ordering} {x : α} {l : List α}
    (h : x ∈ sortByCmp cmp l) : x ∈ l := by
  have hgen : ∀ (l acc : List α), x ∈ l.foldl (fun a y => insertCmp cmp y a) acc →
      x ∈ acc ∨ x ∈ l := by
    intro l
    induction l with
    | nil => intro acc h; exact Or.inl h
    | cons y ys ih =>
      intro acc h
      rcases ih _ h with h | h
      · rcases mem_insertCmp h with h | h
        · exact Or.inr (by rw [h]; exact List.mem_cons_self _ _)
        · exact Or.inl h
      · exact Or.inr (List.mem_cons_of_mem _ h)
  rcases hgen l [] h with h | h
  · cases h
  · exact h

mutual

/-- Every entry anywhere in the placement tree has its tag in `vs`. -/
def pOk (vs : List (String × VRec)) : PNode → Bool
  | .mk _ _ _ deps => pOkL vs deps

def pOkL (vs : List (String × VRec)) : List (String × PNode) → Bool
  | [] => true
  | (_, c) :: rest =>
    containsKey vs (c.name ++ "@" ++ c.version) && pOk vs c && pOkL vs rest

end

theorem pOk_deps {vs : List (String × VRec)} (node : PNode) :
    pOk vs node = pOkL vs node.dependencies := by
  cases node with
  | mk n v va deps => rfl

theorem pOkL_lookup {vs : List (String × VRec)} :
    ∀ {deps : List (String × PNode)} {k : String} {c : PNode},
      pOkL vs deps = true → getKey deps k = some c →
      containsKey vs (c.name ++ "@" ++ c.version) = true ∧ pOk vs c = true := by
  intro deps
  induction deps with
  | nil => intro k c _ h; cases h
  | cons kv rest ih =>
    intro k c hok h
    obtain ⟨k0, c0⟩ := kv
    rw [pOkL] at hok
    simp only [Bool.and_eq_true] at hok
    rw [getKey] at h
    by_cases hk : k0 = k
    · rw [if_pos hk] at h
      cases h
      exact ⟨hok.1.1, hok.1.2⟩
    · rw [if_neg hk] at h
      exact ih hok.2 h

theorem pOkL_setKey {vs : List (String × VRec)} {k : String} {c : PNode} :
    ∀ {deps : List (String × PNode)}, pOkL vs deps = true →
      containsKey vs (c.name ++ "@" ++ c.version) = true → pOk vs c = true →
      pOkL vs (setKey deps k c) = true := by
  intro deps
  induction deps with
  | nil =>
    intro _ hc1 hc2
    rw [setKey, pOkL, pOkL]
    simp [hc1, hc2]
  | cons kv rest ih =>
    intro hok hc1 hc2
    obtain ⟨k0, c0⟩ := kv
    rw [pOkL] at hok
    simp only [Bool.and_eq_true] at hok
    rw [setKey]
    split
    · rw [pOkL]
      simp [hc1, hc2, hok.2]
    · rw [pOkL]
      simp only [Bool.and_eq_true]
      exact ⟨⟨hok.1.1, hok.1.2⟩, ih hok.2 hc1 hc2⟩

theorem insertDep_pOk {vs : List (String × VRec)} {node : PNode}
    {name version variant : String} (h : pOk vs node = true)
    (hc : containsKey vs (name ++ "@" ++ version) = true) :
    pOk vs (insertDep node name version variant) = true := by
  rw [insertDep, pOk_deps]
  have : (PNode.mk node.name node.version node.variant
      (setKey node.dependencies name (.mk name version variant []))).dependencies =
      setKey node.dependencies name (.mk name version variant []) := rfl
  rw [this]
  rw [pOk_deps] at h
  exact pOkL_setKey h hc rfl

theorem addGo_pOk {vs : List (String × VRec)} (name version variant : String)
    (hc : containsKey vs (name ++ "@" ++ version) = true) :
    ∀ (sp : List String) (node : PNode), pOk vs node = true →
      pOk vs (addGo name version variant sp node) = true
  | [], node, h => by
    rw [addGo]
    split
    · split
      · exact h
      · exact insertDep_pOk h hc
    · exact insertDep_pOk h hc
  | part :: rest, node, h => by
    rw [addGo]
    split
    · split
      · exact h
      · split
        · exact insertDep_pOk h hc
        · rename_i child hchild
          have hcp := pOkL_lookup (by rwa [pOk_deps] at h) hchild
          have hrec := addGo_pOk name version variant hc rest child hcp.2
          have hsc : pOk vs (setChild node part (addGo name version variant rest child)) =
              pOkL vs (setKey node.dependencies part (addGo name version variant rest child)) := rfl
          rw [hsc]
          have hfields := addGo_own_fields name version variant rest child
          refine pOkL_setKey (by rwa [pOk_deps] at h) ?_ hrec
          rw [hfields.1, hfields.2.1]
          exact hcp.1
    · exact insertDep_pOk h hc

end Relock

namespace Relock

theorem strBarFree_not_mem {s : String} (h : strBarFree s = true) : '|' ∉ s.data := by
  rw [strBarFree] at h
  intro hmem
  rw [Bool.not_eq_true'] at h
  have : s.data.contains '|' = true :=
    List.contains_iff_exists_mem_beq.mpr ⟨'|', hmem, rfl⟩
  rw [this] at h
  cases h

theorem splitCharL_append : ∀ {xs : List Char} (ys : List Char), '|' ∉ xs →
    splitCharL '|' (xs ++ '|' :: ys) = xs :: splitCharL '|' ys := by
  intro xs
  induction xs with
  | nil =>
    intro ys _
    rw [List.nil_append, splitCharL, if_pos rfl]
  | cons c cs ih =>
    intro ys hmem
    have hc : c ≠ '|' := fun hcc => hmem (by rw [hcc]; exact List.mem_cons_self _ _)
    rw [List.cons_append, splitCharL, if_neg hc, ih ys (fun hm => hmem (List.mem_cons_of_mem _ hm))]

theorem string_eta (s : String) : String.mk s.data = s := by
  cases s
  rfl

theorem splitBar_variant {name version sig : String}
    (hn : strBarFree name = true) (hv : strBarFree version = true) :
    splitBar (name ++ "|" ++ version ++ "|" ++ sig) = name :: version :: splitBar sig := by
  rw [splitBar]
  have hdata : (name ++ "|" ++ version ++ "|" ++ sig).data =
      name.data ++ '|' :: (version.data ++ '|' :: sig.data) := by
    rw [String.data_append, String.data_append, String.data_append]
    rw [show ("|" : String).data = ['|'] from rfl]
    simp [List.append_assoc]
  rw [hdata, splitCharL_append _ (strBarFree_not_mem hn),
    splitCharL_append _ (strBarFree_not_mem hv)]
  rw [List.map_cons, List.map_cons, string_eta, string_eta, splitBar]

theorem add_pOk {vs : List (String × VRec)} {tree : PNode} {p : String} {m : Module}
    (hmok : ModOk vs m) (h : pOk vs tree = true) : pOk vs (add tree p m.variant) = true := by
  rw [add, hmok.2.2.2, splitBar_variant hmok.2.1 hmok.2.2.1]
  have hhead : (m.name :: m.version :: splitBar m.signature).headD "" = m.name := rfl
  have hget : ((m.name :: m.version :: splitBar m.signature).get? 1).getD "" = m.version := rfl
  rw [hhead, hget]
  exact addGo_pOk m.name m.version _ hmok.1 _ tree h

theorem hoistOne_pOk {vs : List (String × VRec)} {m : Module} (hmok : ModOk vs m) :
    ∀ (paths : List String) (t : PNode), pOk vs t = true →
      pOk vs (paths.foldl (fun t p => add t p m.variant) t) = true := by
  intro paths
  induction paths with
  | nil => intro t h; exact h
  | cons p rest ih =>
    intro t h
    exact ih _ (add_pOk hmok h)

theorem flattenTree_pOk {vs : List (String × VRec)} {tree : DepNode}
    (h : okList vs tree.dependencies = true) : pOk vs (flattenTree tree) = true := by
  rw [flattenTree]
  have hmods : ∀ m ∈ sortByCmp cmpModule (biNode tree [] []), ModOk vs m :=
    fun m hm => biNode_ok tree [] [] h (fun _ hx => absurd hx (List.not_mem_nil _))
      m (mem_sortByCmp hm)
  have hgen : ∀ (mods : List Module) (acc : PNode), (∀ m ∈ mods, ModOk vs m) →
      pOk vs acc = true → pOk vs (mods.foldl hoistOne acc) = true := by
    intro mods
    induction mods with
    | nil => intro acc _ h; exact h
    | cons m rest ih =>
      intro acc hm hacc
      exact ih _ (fun x hx => hm x (List.mem_cons_of_mem _ hx))
        (hoistOne_pOk (hm m (List.mem_cons_self _ _)) m.paths acc hacc)
  exact hgen _ _ hmods rfl

end Relock

namespace Relock

theorem pHeight_pos (node : PNode) : 0 < pHeight node := by
  cases node with
  | mk n v va deps => rw [pHeight]; omega

theorem pHeight_lookup_le : ∀ {deps : List (String × PNode)} {k : String} {c : PNode},
    getKey deps k = some c → pHeight c ≤ pHeightL deps := by
  intro deps
  induction deps with
  | nil => intro k c h; cases h
  | cons kv rest ih =>
    intro k c h
    obtain ⟨k0, c0⟩ := kv
    rw [getKey] at h
    rw [pHeightL]
    by_cases hk : k0 = k
    · rw [if_pos hk] at h
      cases h
      exact Nat.le_max_left _ _
    · rw [if_neg hk] at h
      exact Nat.le_trans (ih h) (Nat.le_max_right _ _)

theorem getKey_isSome_of_mem_keys {α : Type} :
    ∀ {deps : List (String × α)} {k : String}, k ∈ deps.map Prod.fst →
      (getKey deps k).isSome = true := by
  intro deps
  induction deps with
  | nil => intro k h; cases h
  | cons kv rest ih =>
    intro k h
    obtain ⟨k0, v0⟩ := kv
    rw [getKey]
    by_cases hk : k0 = k
    · rw [if_pos hk]; rfl
    · rw [if_neg hk]
      rcases List.mem_cons.mp h with h | h
      · exact absurd h.symm hk
      · exact ih h

theorem blfKids_isSome {vs : List (String × VRec)} {deps : List (String × PNode)}
    {go : PNode → Option (List (String × OutNode))}
    (hdeps : pOkL vs deps = true)
    (hgo : ∀ k c, getKey deps k = some c → (go c).isSome = true) :
    ∀ keys : List String, (∀ k ∈ keys, k ∈ deps.map Prod.fst) →
      (blfKids go vs deps keys).isSome = true := by
  intro keys
  induction keys with
  | nil => intro _; rw [blfKids]; rfl
  | cons key rest ih =>
    intro hmem
    rw [blfKids]
    obtain ⟨c, hc⟩ := Option.isSome_iff_exists.mp
      (getKey_isSome_of_mem_keys (hmem key (List.mem_cons_self _ _)))
    rw [hc]
    try dsimp only
    obtain ⟨content, hct⟩ := Option.isSome_iff_exists.mp (pOkL_lookup hdeps hc).1
    rw [hct]
    try dsimp only
    obtain ⟨kids, hk⟩ := Option.isSome_iff_exists.mp (hgo key c hc)
    rw [hk]
    try dsimp only
    obtain ⟨others, ho⟩ := Option.isSome_iff_exists.mp
      (ih (fun k hkk => hmem k (List.mem_cons_of_mem _ hkk)))
    rw [ho]
    rfl

theorem blfOne_isSome {vs : List (String × VRec)} :
    ∀ (fuel : Nat) (node : PNode), pHeight node ≤ fuel → pOk vs node = true →
      (blfOne vs fuel node).isSome = true := by
  intro fuel
  induction fuel with
  | zero =>
    intro node hh _
    have := pHeight_pos node
    omega
  | succ k ih =>
    intro node hh hok
    rw [blfOne]
    have hdeps : pOkL vs node.dependencies = true := by rwa [pOk_deps] at hok
    refine blfKids_isSome hdeps ?_ _ (fun kk hkk => mem_sortByCmp hkk)
    intro kk c hc
    refine ih c ?_ (pOkL_lookup hdeps hc).2
    have h1 := pHeight_lookup_le hc
    have h2 : pHeight node = pHeightL node.dependencies + 1 := by
      cases node with
      | mk n v va deps => rfl
    omega

theorem buildLockFile_isSome {vs : List (String × VRec)} {tree : PNode}
    {curName curVersion : String} (h : pOk vs tree = true) :
    (buildLockFile vs tree curName curVersion).isSome = true := by
  rw [buildLockFile]
  obtain ⟨deps, hd⟩ := Option.isSome_iff_exists.mp
    (blfOne_isSome (pHeight tree) tree (le_refl _) h)
  rw [hd]
  rfl

/-! ## C10: the assembler's versions lookups are total (amended) -/

def barLock : LockNode := .mk "1.0.0" [("x", "1.0.0")] [("x", .mk "1|2" [] [])]

/-- The dependency tree that both builds of `barLock` produce. -/
def bt1 : DepNode :=
  .mk "" "1.0.0" "" "" [("x", "1.0.0")] "5e6caf80116c6830aa171a91431aa5b3"
    [.mk "x" "1|2" "1.0.0" "x@1|2" [] "d751713988987e9331980363e24189ce" []]

/-- The builder state after the first build of `barLock`. -/
def bs1 : BState :=
  BState.mk
    [("d751713988987e9331980363e24189ce", []),
     ("5e6caf80116c6830aa171a91431aa5b3",
      [.mk "x" "1|2" "1.0.0" "x@1|2" [] "d751713988987e9331980363e24189ce" []])]
    [("x@1|2", VRec.mk "1|2" [])]
    [("x", []),
     ("", [.mk "x" "1|2" "1.0.0" "x@1|2" [] "d751713988987e9331980363e24189ce" []])]

/-- The placement tree the hoister hands to the assembler for `barLock`:
the variant key `x|1|2|<sig>` re-parses as name `x`, version `1`. -/
def bplace : PNode :=
  .mk "" "1.0.0" "" [("x", .mk "x" "1" "x|1|2|d751713988987e9331980363e24189ce" [])]

/-- C10 counterexample: the lock entry for `x` carries the version string
`1|2`, which contains the `'|'` used as the variant separator.  All four
earlier stages succeed (both builds yield `bt1`, the mix returns it
unchanged), but the hoister splits `x`'s variant key
`x|1|2|<signature>` at `'|'` and reads back name `x`, version `1` — so the
placement tree hands `buildLockFile` the pair `(x, 1)`, whose tag `x@1` is
not in the versions store (which holds `x@1|2`), the unguarded lookup
yields `undefined`, the JS deep copy throws, and the run fails: assembly
is not total for every run of the pipeline. -/
theorem buildLockFile_lookup_fails_on_bar_version :
    generateDependencyTree barLock initState = some (bt1, bs1) ∧
    generateDependencyTree barLock bs1 = some (bt1, bs1) ∧
    relockTree cfgNone bt1 bt1 = some bt1 ∧
    flattenTree bt1 = bplace ∧
    (getKey bplace.dependencies "x").map (fun n => (n.name, n.version)) =
      some ("x", "1") ∧
    containsKey bs1.versions "x@1" = false ∧
    containsKey bs1.versions "x@1|2" = true ∧
    buildLockFile bs1.versions bplace "proj" barLock.version = none ∧
    relock cfgNone barLock barLock "proj" initState = none := by
  have e1 : generateDependencyTree barLock initState = some (bt1, bs1) := rfl
  have e2 : generateDependencyTree barLock bs1 = some (bt1, bs1) := rfl
  have e3 : relockTree cfgNone bt1 bt1 = some bt1 := rfl
  have e4 : flattenTree bt1 = bplace := rfl
  have e5 : buildLockFile bs1.versions bplace "proj" barLock.version = none := rfl
  refine ⟨e1, e2, e3, e4, rfl, rfl, rfl, e5, ?_⟩
  unfold relock
  rw [e1]
  dsimp only
  rw [e2]
  dsimp only
  rw [e3]
  dsimp only
  rw [e4]
  exact e5


/-- C10 (amended: restricted to lock files whose version strings and
`requires` names are free of the `'|'` separator, which the hoister uses
to encode and re-parse `name|version|signature` variant keys): for every
run of the full relock pipeline on such inputs, every (name, version) pair
appearing as a dependency entry in the placement tree handed to
`buildLockFile` has a matching `name@version` entry in the versions store
populated during the previous and current tree builds, so the assembler's
unguarded lookup and deep copy never operate on an undefined value and
assembly is total. -/
theorem relock_assembly_total
    (cfg : Config) (previous current : LockNode) (curName : String) (st : BState)
    (prevTree curTree mixed : DepNode) (st1 st2 : BState)
    (hbfPrev : lockBarFree previous = true) (hbfCur : lockBarFree current = true)
    (h1 : generateDependencyTree previous st = some (prevTree, st1))
    (h2 : generateDependencyTree current st1 = some (curTree, st2))
    (h3 : relockTree cfg prevTree curTree = some mixed) :
    pOk st2.versions (flattenTree mixed) = true ∧
    (buildLockFile st2.versions (flattenTree mixed) curName current.version).isSome = true ∧
    relock cfg previous current curName st =
      buildLockFile st2.versions (flattenTree mixed) curName current.version := by
  have hokPrev1 : okList st1.versions prevTree.dependencies = true :=
    generateDependencyTree_ok hbfPrev h1
  have hokCur : okList st2.versions curTree.dependencies = true :=
    generateDependencyTree_ok hbfCur h2
  have hokPrev : okList st2.versions prevTree.dependencies = true :=
    okList_mono (generateDependencyTree_mono h2).2 _ hokPrev1
  have hokMixed : okList st2.versions mixed.dependencies = true :=
    mixOne_ok cfg (depHeight curTree) curTree prevTree mixed hokCur hokPrev h3
  have hpok : pOk st2.versions (flattenTree mixed) = true := flattenTree_pOk hokMixed
  refine ⟨hpok, buildLockFile_isSome hpok, ?_⟩
  unfold relock
  rw [h1]
  dsimp only
  rw [h2]
  dsimp only
  rw [h3]

/-- The dependency tree of the `prevL9` build. -/
def pt10 : DepNode :=
  .mk "" "1.0.0" "" "" [("a", "^1.0.0")] "a3bb44ef8871776714c814181f55aaf1"
    [.mk "a" "1.0.3" "^1.0.0" "a@1.0.3" [("c", "^2.0.0")]
       "7c56e7832157c8e6a6d5c5ddcc6d46d2"
       [.mk "c" "2.0.1" "^2.0.0" "c@2.0.1" [] "d751713988987e9331980363e24189ce" []]]

/-- The builder state after the `prevL9` build. -/
def ps10 : BState :=
  BState.mk
    [("d751713988987e9331980363e24189ce", []),
     ("7c56e7832157c8e6a6d5c5ddcc6d46d2",
      [.mk "c" "2.0.1" "^2.0.0" "c@2.0.1" [] "d751713988987e9331980363e24189ce" []]),
     ("a3bb44ef8871776714c814181f55aaf1",
      [.mk "a" "1.0.3" "^1.0.0" "a@1.0.3" [("c", "^2.0.0")]
         "7c56e7832157c8e6a6d5c5ddcc6d46d2"
         [.mk "c" "2.0.1" "^2.0.0" "c@2.0.1" [] "d751713988987e9331980363e24189ce" []]])]
    [("a@1.0.3", VRec.mk "1.0.3" [("c", "^2.0.0")]), ("c@2.0.1", VRec.mk "2.0.1" [])]
    [("c", []),
     ("a", [.mk "c" "2.0.1" "^2.0.0" "c@2.0.1" [] "d751713988987e9331980363e24189ce" []]),
     ("", [.mk "a" "1.0.3" "^1.0.0" "a@1.0.3" [("c", "^2.0.0")]
             "7c56e7832157c8e6a6d5c5ddcc6d46d2"
             [.mk "c" "2.0.1" "^2.0.0" "c@2.0.1" [] "d751713988987e9331980363e24189ce" []]])]

/-- The dependency tree of the `curL9` build. -/
def ct10 : DepNode :=
  .mk "" "1.0.0" "" "" [("a", "^1.0.0"), ("b", "^1.0.0")]
    "04d84ad620c3de3ead8cf0be507a8481"
    [.mk "a" "1.0.4" "^1.0.0" "a@1.0.4" [("c", "^2.0.0")]
       "abd3d63eefc32f98c7d9981da9e0e74a"
       [.mk "c" "2.0.2" "^2.0.0" "c@2.0.2" [] "d751713988987e9331980363e24189ce" []],
     .mk "b" "1.0.0" "^1.0.0" "b@1.0.0" [] "d751713988987e9331980363e24189ce" []]

/-- The builder state after the `curL9` build on top of `ps10`. -/
def st20 : BState :=
  BState.mk
    [("d751713988987e9331980363e24189ce", []),
     ("7c56e7832157c8e6a6d5c5ddcc6d46d2",
      [.mk "c" "2.0.1" "^2.0.0" "c@2.0.1" [] "d751713988987e9331980363e24189ce" []]),
     ("a3bb44ef8871776714c814181f55aaf1",
      [.mk "a" "1.0.3" "^1.0.0" "a@1.0.3" [("c", "^2.0.0")]
         "7c56e7832157c8e6a6d5c5ddcc6d46d2"
         [.mk "c" "2.0.1" "^2.0.0" "c@2.0.1" [] "d751713988987e9331980363e24189ce" []]]),
     ("abd3d63eefc32f98c7d9981da9e0e74a",
      [.mk "c" "2.0.2" "^2.0.0" "c@2.0.2" [] "d751713988987e9331980363e24189ce" []]),
     ("04d84ad620c3de3ead8cf0be507a8481",
      [.mk "a" "1.0.4" "^1.0.0" "a@1.0.4" [("c", "^2.0.0")]
         "abd3d63eefc32f98c7d9981da9e0e74a"
         [.mk "c" "2.0.2" "^2.0.0" "c@2.0.2" [] "d751713988987e9331980363e24189ce" []],
       .mk "b" "1.0.0" "^1.0.0" "b@1.0.0" [] "d751713988987e9331980363e24189ce" []])]
    [("a@1.0.3", VRec.mk "1.0.3" [("c", "^2.0.0")]), ("c@2.0.1", VRec.mk "2.0.1" []),
     ("a@1.0.4", VRec.mk "1.0.4" [("c", "^2.0.0")]), ("c@2.0.2", VRec.mk "2.0.2" []),
     ("b@1.0.0", VRec.mk "1.0.0" [])]
    [("c", []),
     ("a", [.mk "c" "2.0.2" "^2.0.0" "c@2.0.2" [] "d751713988987e9331980363e24189ce" []]),
     ("b", []),
     ("", [.mk "a" "1.0.4" "^1.0.0" "a@1.0.4" [("c", "^2.0.0")]
             "abd3d63eefc32f98c7d9981da9e0e74a"
             [.mk "c" "2.0.2" "^2.0.0" "c@2.0.2" [] "d751713988987e9331980363e24189ce" []],
           .mk "b" "1.0.0" "^1.0.0" "b@1.0.0" [] "d751713988987e9331980363e24189ce" []])]

/-- The mixed tree `relockTree` produces from `pt10` and `ct10`: `a` is
kept from the previous build (unchanged range), `b` adopted from the
current build. -/
def mx10 : DepNode :=
  .mk "" "1.0.0" "" "" [("a", "^1.0.0"), ("b", "^1.0.0")]
    "04d84ad620c3de3ead8cf0be507a8481"
    [.mk "a" "1.0.3" "^1.0.0" "a@1.0.3" [("c", "^2.0.0")]
       "7c56e7832157c8e6a6d5c5ddcc6d46d2"
       [.mk "c" "2.0.1" "^2.0.0" "c@2.0.1" [] "d751713988987e9331980363e24189ce" []],
     .mk "b" "1.0.0" "^1.0.0" "b@1.0.0" [] "d751713988987e9331980363e24189ce" []]

/-- C10 witness: the bar-free two-build run on `prevL9`/`curL9` assembles
successfully. -/
theorem relock_assembly_total_witness :
    lockBarFree prevL9 = true ∧ lockBarFree curL9 = true ∧
    (buildLockFile st20.versions (flattenTree mx10) "proj" curL9.version).isSome = true ∧
    (relock cfgNone prevL9 curL9 "proj" initState).isSome = true := by
  have h := relock_assembly_total cfgNone prevL9 curL9 "proj" initState
    pt10 ct10 mx10 ps10 st20 rfl rfl rfl rfl rfl
  refine ⟨rfl, rfl, h.2.1, ?_⟩
  rw [h.2.2]
  exact h.2.1

end Relock
